import Mathlib

/-!
Verification of the merman graph layouting tool.

The development shallowly embeds `src/graph.rs` (graph model and
`reverse_topological_sort`) and `src/layouting.rs` (`to_svg`) into Lean.
Rust `usize` values are modelled as `Nat`; the sentinel `usize::MAX` used by
`reverse_topological_sort` is the explicit constant `usizeMax`.  The main
worklist loop of `reverse_topological_sort` is modelled with an explicit fuel
parameter (`sortLoop`); `sortLoop` returning `none` means the fuel ran out,
and it is proved below that the fuel `sortFuel` always suffices.  A Rust
panic (overflow of `usize::MAX + 1`, indexing past the end of a vector,
`unwrap` of `None`) is modelled as the value `none` of the surrounding
`Option`.  Rust `i32` arithmetic in the renderer is modelled as `Int` with
truncating division `Int.tdiv`.
-/

/-- Value of `usize::MAX` on a 64-bit platform, the sentinel stored in
`nodes_distance` for unvisited nodes. -/
def usizeMax : Nat := 2 ^ 64 - 1

/-- Mirrors `struct Node` of `src/graph.rs`. -/
structure Node where
  id : String
  name : String
  op : Option String
deriving DecidableEq

/-- Mirrors `struct Connection` of `src/graph.rs`: a directed edge
`from_index → to_index` between node indices. -/
structure Connection where
  from_index : Nat
  to_index : Nat
deriving DecidableEq

/-- Mirrors `struct Graph` of `src/graph.rs`: node list plus the two
adjacency views `from_connections` (outgoing per node index) and
`to_connections` (incoming per node index). -/
structure Graph where
  nodes : List Node
  from_connections : List (List Connection)
  to_connections : List (List Connection)
deriving DecidableEq

/-- Mirrors `enum GraphError` of `src/graph.rs`. -/
inductive GraphError where
  | parseError (message : String)
  | internalError (message : String)
deriving DecidableEq

/-- Mirrors `struct SortOrder` of `src/graph.rs`. -/
structure SortOrder where
  order_indices : List Nat
  depths : List Nat
  index_at_depth : List Nat
  nodes_in_level : List Nat
deriving DecidableEq

/-- Mirrors `Graph::node_size`. -/
def Graph.node_size (g : Graph) : Nat := g.nodes.length

/-- Mirrors `Graph::node` (indexing panics are irrelevant here: every use in
the claims is at an in-range index). -/
def Graph.node (g : Graph) (node_index : Nat) : Node :=
  g.nodes.getD node_index ⟨"", "", none⟩

/-- A sink in the sense of `reverse_topological_sort`: a node whose
`from_connections` entry is empty (no outgoing connections). -/
def Graph.IsSink (g : Graph) (u : Nat) : Prop :=
  g.from_connections.getD u [] = []

instance (g : Graph) (u : Nat) : Decidable (g.IsSink u) := by
  unfold Graph.IsSink; infer_instance

/-- The edge relation of the graph as traversed by the sort: `Edge u v` holds
when some connection in `to_connections[v]` has source `u`, i.e. `u` feeds
`v`. -/
def Graph.Edge (g : Graph) (u v : Nat) : Prop :=
  ∃ c ∈ g.to_connections.getD v [], c.from_index = u

instance (g : Graph) (u v : Nat) : Decidable (g.Edge u v) :=
  List.decidableBEx (fun c : Connection => c.from_index = u) (g.to_connections.getD v [])

/-- Well-formedness guaranteed by `Graph::from_str` (and relied upon by the
Rust code for panic-freedom): the adjacency tables have one entry per node,
membership of a connection in a table is consistent with its endpoints, all
indices are in range, and the node count fits in a `usize`. -/
structure Graph.WF (g : Graph) : Prop where
  from_length : g.from_connections.length = g.node_size
  to_length : g.to_connections.length = g.node_size
  size_small : g.node_size < usizeMax
  to_mem : ∀ v < g.node_size, ∀ c ∈ g.to_connections.getD v [], c.to_index = v ∧ c.from_index < g.node_size
  from_mem : ∀ u < g.node_size, ∀ c ∈ g.from_connections.getD u [], c.from_index = u ∧ c.to_index < g.node_size
  to_from : ∀ v < g.node_size, ∀ c ∈ g.to_connections.getD v [], c ∈ g.from_connections.getD c.from_index []
  from_to : ∀ u < g.node_size, ∀ c ∈ g.from_connections.getD u [], c ∈ g.to_connections.getD c.to_index []

/-- Existence of a directed path of length `d` from `u` to some sink:
`l` is the list of successive nodes after `u`. -/
def ReachSinkLen (g : Graph) (u : Nat) (d : Nat) : Prop :=
  ∃ l : List Nat, List.Chain g.Edge u l ∧ l.length = d ∧ g.IsSink (l.getLastD u)

/-- Absence of directed cycles. -/
def Acyclic (g : Graph) : Prop := ∀ u, ¬ Relation.TransGen g.Edge u u

/-- The worklist loop of `reverse_topological_sort` (`while let Some(..) =
nodes_to_visit.pop_front()` in `src/graph.rs`), with explicit fuel. The queue
is the list of `(node index, distance)` pairs, `dists` is `nodes_distance`.
`none` means the fuel ran out (proved impossible below for fuel `sortFuel`). -/
def sortLoop (g : Graph) : Nat → List (Nat × Nat) → List Nat → Option (Except GraphError (List Nat))
  | _, [], dists => some (.ok dists)
  | 0, _ :: _, _ => none
  | fuel + 1, (current, dist) :: rest, dists =>
    if g.node_size ≤ dist then
      some (.error (.internalError ("Cycle detected at node " ++ (g.node current).name)))
    else if dists.getD current usizeMax = dist then
      sortLoop g fuel rest dists
    else
      sortLoop g fuel
        (rest ++ (g.to_connections.getD current []).map (fun c => (c.from_index, dist + 1)))
        (dists.set current dist)

/-- The initial queue of `reverse_topological_sort`: all nodes without
outgoing connections, at distance 0. -/
def initialQueue (g : Graph) : List (Nat × Nat) :=
  (g.from_connections.enum.filter (fun p => p.2.isEmpty)).map (fun p => (p.1, 0))

/-- Total number of connections listed in `to_connections`; bounds the number
of pushes a single loop iteration can perform. -/
def connectionTotal (g : Graph) : Nat := (g.to_connections.map List.length).sum

/-- Fuel that always suffices for `sortLoop` (proved below). -/
def sortFuel (g : Graph) : Nat :=
  g.node_size + (connectionTotal g + 1) * (g.node_size * g.node_size) + 1

/-- Comparator used for `indices.sort_by(.. nodes_distance[l].cmp(&nodes_distance[r]))`.
The default of `getD` is irrelevant: the comparator is only applied to
indices below `dists.length`. -/
def distLe (dists : List Nat) (l r : Nat) : Bool :=
  dists.getD l 0 ≤ dists.getD r 0

/-- The final `for depth_index in 0..depths.len()` loop of
`reverse_topological_sort`: walks the sorted depth list carrying
`last_depth_index` and `index_within_depth`, producing `index_at_depth` and
updating `nodes_in_level`.  Note that after processing an element `d` the
carried `last_depth_index` equals `d` whether or not a reset happened, so the
recursive call passes `d`. -/
def levelWalk : List Nat → Nat → Nat → List Nat → List Nat × List Nat
  | [], _, _, nodes_in_level => ([], nodes_in_level)
  | d :: rest, last_depth, idx, nodes_in_level =>
    let idx' := if d ≠ last_depth then 0 else idx
    let r := levelWalk rest d (idx' + 1) (nodes_in_level.set d (idx' + 1))
    (idx' :: r.1, r.2)

/-- Stable insertion of `a` into an already sorted list: `a` goes in front
of the first element `b` with `le a b`, so among elements with equal keys a
newly inserted (originally earlier) element comes first. -/
def insertSorted (le : Nat → Nat → Bool) (a : Nat) : List Nat → List Nat
  | [] => [a]
  | b :: l => if le a b then a :: b :: l else b :: insertSorted le a l

/-- Stable insertion sort.  Rust `sort_by` is a stable sort, and for a total
preorder comparator every stable sort computes the same permutation (the
sorted one preserving the relative order of elements with equal keys); this
one is structurally recursive, so concrete runs reduce inside the kernel. -/
def insertionSort (le : Nat → Nat → Bool) : List Nat → List Nat
  | [] => []
  | a :: l => insertSorted le a (insertionSort le l)

/-- The stable sort of `reverse_topological_sort`:
`indices.sort_by(|l, r| nodes_distance[l].cmp(&nodes_distance[r]))` applied
to `(0..node_size).collect()`. -/
def sortedIndices (g : Graph) (dists : List Nat) : List Nat :=
  insertionSort (distLe dists) (List.range g.node_size)

/-- The `depths` vector: recorded distances in sorted order. -/
def sortedDepths (g : Graph) (dists : List Nat) : List Nat :=
  (sortedIndices g dists).map (fun i => dists.getD i 0)

/-- The post-loop phase of `reverse_topological_sort`: stable sort of the
node indices by recorded distance, extraction of `depths`, and the
`index_at_depth` / `nodes_in_level` walk.  `none` models the Rust panic when
`depths` is empty (`last().unwrap()`) or when the last depth is the unset
sentinel (`usize::MAX + 1` overflows, and the subsequent indexing by that
depth is out of bounds). -/
def postprocess (g : Graph) (dists : List Nat) : Option SortOrder :=
  match (sortedDepths g dists).getLast? with
  | none => none
  | some last =>
    if last = usizeMax then none
    else
      let walk := levelWalk (sortedDepths g dists) 0 0 (List.replicate (last + 1) 0)
      some ⟨sortedIndices g dists, sortedDepths g dists, walk.1, walk.2⟩

/-- Mirrors `Graph::reverse_topological_sort`.  The outer `Option` is `none`
exactly when the Rust function would panic (never, for well-formed graphs
whose every node is reachable from a sink along reversed edges); the `Except`
carries the `Err`/`Ok` result. -/
def Graph.reverse_topological_sort (g : Graph) : Option (Except GraphError SortOrder) :=
  if initialQueue g = [] then some (.error (.internalError "EmptyGraph"))
  else
    match sortLoop g (sortFuel g) (initialQueue g) (List.replicate g.node_size usizeMax) with
    | none => none
    | some (.error e) => some (.error e)
    | some (.ok dists) => (postprocess g dists).map Except.ok

/-! ### Graph construction (`Graph::from_str`, after JSON parsing)

The text-to-`GraphFormat` step is the external `serde_json` parser; the part
of `from_str` belonging to this repository is the construction of the node
list, the key→index map, and the resolution of connection endpoints. -/

/-- Mirrors `struct NodeFormat` of `src/graph.rs`. -/
structure NodeFormat where
  name : String
  op : Option String
deriving DecidableEq

/-- Mirrors `struct ConnectionFormat`; the Rust fields `from`/`to` are
renamed `from_key`/`to_key` because `from` is a Lean keyword. -/
structure ConnectionFormat where
  from_key : String
  to_key : String
deriving DecidableEq

/-- Mirrors `struct GraphFormat`; the `IndexMap` of nodes is modelled as the
list of its entries in insertion order (JSON object keys are distinct). -/
structure GraphFormat where
  layout_direction : String
  nodes : List (String × NodeFormat)
  connections : List ConnectionFormat
deriving DecidableEq

/-- Lookup in the `BTreeMap<String, usize>` built by inserting each node key
with its position; with distinct keys this is the first (only) match. -/
def indexLookup (nodes : List (String × NodeFormat)) (k : String) : Option Nat :=
  (nodes.enum.find? (fun p => p.2.1 = k)).map (fun p => p.1)

/-- Appends a connection to the table entry at `i`
(`result.from_connections[i].push(..)`). -/
def pushAt (tables : List (List Connection)) (i : Nat) (c : Connection) : List (List Connection) :=
  tables.set i (tables.getD i [] ++ [c])

/-- The `for connection in parsed.connections.iter()` loop of
`Graph::from_str`: resolves endpoint keys left to right and aborts with the
error of the first unresolved key (`?` propagation). -/
def resolveConnections (lookup : String → Option Nat) :
    List ConnectionFormat → List (List Connection) → List (List Connection) →
    Except GraphError (List (List Connection) × List (List Connection))
  | [], fromT, toT => .ok (fromT, toT)
  | c :: rest, fromT, toT =>
    match lookup c.from_key with
    | none => .error (.internalError ("Invalid from reference " ++ c.from_key))
    | some from_index =>
      match lookup c.to_key with
      | none => .error (.internalError ("Invalid to reference " ++ c.to_key))
      | some to_index =>
        resolveConnections lookup rest
          (pushAt fromT from_index ⟨from_index, to_index⟩)
          (pushAt toT to_index ⟨from_index, to_index⟩)

/-- Mirrors `Graph::from_str` after the external JSON parse: node list in
insertion order, then connection resolution. -/
def buildGraph (parsed : GraphFormat) : Except GraphError Graph :=
  match resolveConnections (indexLookup parsed.nodes) parsed.connections
      (List.replicate parsed.nodes.length []) (List.replicate parsed.nodes.length []) with
  | .error e => .error e
  | .ok (fromT, toT) =>
    .ok ⟨parsed.nodes.map (fun p => Node.mk p.1 p.2.name p.2.op), fromT, toT⟩

/-! ### Rendering (`src/layouting.rs`)

Rust `i32` arithmetic is modelled as `Int`; `i32` division truncates toward
zero, which is `Int.tdiv`.  A `none` result models a Rust panic
(`max().expect(..)` on an empty `nodes_in_level`, `position(..).unwrap()`
failing, or the `usize` subtraction `from_level_index - level_index - 1`
underflowing). -/

/-- Mirrors `struct Style` of `src/layouting.rs` (all fields `i32`). -/
structure Style where
  top_level_margin : Int
  box_width : Int
  width_between_boxes : Int
  box_height : Int
  height_between_boxes : Int
  margin_width : Int
  margin_height : Int
  text_font_size_normal : Int
  text_font_size_larger : Int
deriving DecidableEq

/-- Mirrors `Style::width_per_level`. -/
def Style.width_per_level (s : Style) : Int := s.box_width + s.width_between_boxes

/-- Mirrors `Style::height_per_level`. -/
def Style.height_per_level (s : Style) : Int := s.box_height + s.height_between_boxes

/-- Mirrors `DEFAULT_STYLE`. -/
def DEFAULT_STYLE : Style :=
  { top_level_margin := 5
  , box_width := 160
  , width_between_boxes := 50
  , box_height := 40
  , height_between_boxes := 40
  , margin_width := 10
  , margin_height := 10
  , text_font_size_normal := 10
  , text_font_size_larger := 12 }

/-- Mirrors `draw_box`: returns the text appended to `result` (rectangle,
optional op label, name label).  The `stroke-widht` typo is the source's. -/
def draw_box (node : Node) (style : Style) (x_center y_center : Int) : String :=
  let text_vertical_offset := Int.tdiv style.box_height 4
  let rect := "<rect x=\"" ++ toString (x_center - Int.tdiv style.box_width 2)
    ++ "\" y=\"" ++ toString (y_center - Int.tdiv style.box_height 2)
    ++ "\" height=\"" ++ toString style.box_height
    ++ "\" width=\"" ++ toString style.box_width
    ++ "\" fill=\"none\" stroke=\"black\" rx=\"2\" stroke-widht=\"2\"/>\n"
  let opText := match node.op with
    | some op_name => "<text font-size=\"" ++ toString style.text_font_size_larger
        ++ "\" font-family=\"monospace\" x=\"" ++ toString x_center
        ++ "\" y=\"" ++ toString (y_center - text_vertical_offset)
        ++ "\" dominant-baseline=\"middle\" text-anchor=\"middle\">" ++ op_name ++ "</text>\n"
    | none => ""
  let nameText := "<text font-size=\"" ++ toString style.text_font_size_normal
    ++ "\" font-family=\"monospace\" x=\"" ++ toString x_center
    ++ "\" y=\"" ++ toString (y_center + text_vertical_offset)
    ++ "\" dominant-baseline=\"middle\" text-anchor=\"middle\">" ++ node.name ++ "</text>\n"
  rect ++ opText ++ nameText

/-- The inner `for connection_index in 0..g.to_connections()[node_index].len()`
loop of `to_svg`, drawing one curved path per incoming connection of the
current node.  `x`/`y` are the consumer's center, `level_index` its depth. -/
def renderConnections (g : Graph) (sort_order : SortOrder) (style : Style)
    (level_count max_count_in_single_level : Int) (node_index level_index : Nat)
    (x y : Int) : Nat → List Connection → Option String
  | _, [] => some ""
  | connection_index, c :: restConns =>
    let from_index := c.from_index
    match sort_order.order_indices.findIdx? (fun z => z == from_index) with
    | none => none
    | some from_index_in_sort_order =>
      let from_level_index := sort_order.depths.getD from_index_in_sort_order 0
      let num_inputs : Int := (g.to_connections.getD node_index []).length
      let x_from := (level_count - (from_level_index : Int) - 1) * style.width_per_level
        + style.margin_height + Int.tdiv style.width_per_level 2 + Int.tdiv style.box_width 2
      let y_from := ((sort_order.index_at_depth.getD from_index_in_sort_order 0 : Nat) : Int) * style.height_per_level
        + style.margin_height + Int.tdiv style.height_per_level 2
        + Int.tdiv style.height_per_level 2
          * (max_count_in_single_level - (sort_order.nodes_in_level.getD from_level_index 0 : Int))
      let y_to := y + Int.tdiv style.box_height 2
        - Int.tdiv style.box_height (num_inputs + 1) * (num_inputs - (connection_index : Int))
      let x_to := x - Int.tdiv style.box_width 2 - 10
      if from_level_index < level_index + 1 then none
      else
        let control_point_ext := Int.tdiv style.width_between_boxes 4
          + ((from_level_index - level_index - 1 : Nat) : Int) * style.width_between_boxes
        let path := "<path d=\"M " ++ toString x_from ++ " " ++ toString y_from
          ++ " C " ++ toString (x_from + control_point_ext) ++ " " ++ toString y_from
          ++ ", " ++ toString (x_to - control_point_ext) ++ " " ++ toString y_to
          ++ ", " ++ toString x_to ++ " " ++ toString y_to
          ++ "\" stroke=\"black\" stroke-width=\"2\" marker-end=\"url(#arrowhead)\" fill=\"none\"/>\n"
        match renderConnections g sort_order style level_count max_count_in_single_level
            node_index level_index x y (connection_index + 1) restConns with
        | none => none
        | some restStr => some (path ++ restStr)

/-- The outer `for (i, &node_index) in sort_order.order_indices.iter().enumerate()`
loop of `to_svg`: one box plus its incoming connection paths per node. -/
def renderNodes (g : Graph) (sort_order : SortOrder) (style : Style)
    (level_count max_count_in_single_level : Int) : List (Nat × Nat) → Option String
  | [] => some ""
  | (i, node_index) :: rest =>
    let level_index := sort_order.depths.getD i 0
    let index_within_level := sort_order.index_at_depth.getD i 0
    let x := (level_count - (level_index : Int) - 1) * style.width_per_level
      + style.margin_height + Int.tdiv style.width_per_level 2
    let y := ((index_within_level : Nat) : Int) * style.height_per_level
      + style.margin_height + Int.tdiv style.height_per_level 2
      + Int.tdiv style.height_per_level 2
        * (max_count_in_single_level - (sort_order.nodes_in_level.getD level_index 0 : Int))
    let box := draw_box (g.node node_index) style x y
    match renderConnections g sort_order style level_count max_count_in_single_level
        node_index level_index x y 0 (g.to_connections.getD node_index []) with
    | none => none
    | some conns =>
      match renderNodes g sort_order style level_count max_count_in_single_level rest with
      | none => none
      | some restStr => some (box ++ conns ++ restStr)

/-- The fixed `<defs>` block written by `to_svg`. -/
def svgDefs : String :=
  "<defs>\n    <marker\n        id=\"arrowhead\"\n        markerWidth=\"6\"\n        markerHeight=\"6\"\n        refX=\"0\"\n        refY=\"3\"\n        orient=\"auto\"\n    >\n        <polygon points=\"0 0, 6 3, 0 6\" />\n    </marker>\n</defs>\n"

/-- Canvas width computed by `to_svg`. -/
def canvasWidth (sort_order : SortOrder) (style : Style) : Int :=
  style.width_per_level * (sort_order.nodes_in_level.length : Int) + 2 * style.margin_width

/-- Canvas height computed by `to_svg`, given the maximum level occupancy. -/
def canvasHeight (max_count_in_single_level : Int) (style : Style) : Int :=
  style.height_per_level * max_count_in_single_level + 2 * style.margin_height

/-- The `<svg ...>` opening line written by `to_svg`. -/
def svgHeader (height width : Int) : String :=
  "<svg height=\"" ++ toString height ++ "\" width=\"" ++ toString width
    ++ "\" xmlns=\"http://www.w3.org/2000/svg\">\n"

/-- The background frame rectangle written by `to_svg`. -/
def svgFrame (height width : Int) (style : Style) : String :=
  "<rect x=\"" ++ toString style.top_level_margin
    ++ "\" y=\"" ++ toString style.top_level_margin
    ++ "\" height=\"" ++ toString (height - style.top_level_margin)
    ++ "\" width=\"" ++ toString (width - style.top_level_margin)
    ++ "\" fill=\"white\" stroke=\"black\" rx=\"2\" stroke-width=\"2\"/>\n"

/-- Mirrors `to_svg` of `src/layouting.rs`. -/
def to_svg (g : Graph) (sort_order : SortOrder) (style : Style) : Option String :=
  match sort_order.nodes_in_level.max? with
  | none => none
  | some maxLevel =>
    let level_count : Int := sort_order.nodes_in_level.length
    let max_count_in_single_level : Int := maxLevel
    let width := canvasWidth sort_order style
    let height := canvasHeight max_count_in_single_level style
    match renderNodes g sort_order style level_count max_count_in_single_level
        sort_order.order_indices.enum with
    | none => none
    | some body =>
      some (svgHeader height width ++ svgDefs ++ svgFrame height width style
        ++ body ++ "</svg>\n")

/-! ### Basic facts about edges, sinks and paths -/

/-- Recorded distance of node `u` in the `nodes_distance` vector (with the
sentinel as default; all uses are at in-range indices). -/
def distOf (dists : List Nat) (u : Nat) : Nat := dists.getD u usizeMax

theorem distOf_set_self {dists : List Nat} {curr v : Nat} (h : curr < dists.length) :
    distOf (dists.set curr v) curr = v := by
  unfold distOf
  rw [List.getD_eq_getElem _ _ (by simpa using h), List.getElem_set_self]

theorem distOf_set_ne {dists : List Nat} {curr v u : Nat} (h : u ≠ curr) :
    distOf (dists.set curr v) u = distOf dists u := by
  unfold distOf
  rw [List.getD_eq_getElem?_getD, List.getD_eq_getElem?_getD, List.getElem?_set_ne (Ne.symm h)]

theorem edge_to_lt {g : Graph} (hw : g.WF) {u v : Nat} (h : g.Edge u v) : v < g.node_size := by
  obtain ⟨c, hc, -⟩ := h
  by_contra hv
  push_neg at hv
  rw [List.getD_eq_default _ _ (by rw [hw.to_length]; exact hv)] at hc
  exact absurd hc (List.not_mem_nil c)

theorem edge_from_lt {g : Graph} (hw : g.WF) {u v : Nat} (h : g.Edge u v) : u < g.node_size := by
  have hv := edge_to_lt hw h
  obtain ⟨c, hc, hcu⟩ := h
  have := (hw.to_mem v hv c hc).2
  omega

theorem sink_no_edge {g : Graph} (hw : g.WF) {u v : Nat} (hs : g.IsSink u) : ¬ g.Edge u v := by
  intro h
  have hv := edge_to_lt hw h
  obtain ⟨c, hc, rfl⟩ := h
  have hmem := hw.to_from v hv c hc
  rw [Graph.IsSink] at hs
  rw [hs] at hmem
  exact absurd hmem (List.not_mem_nil c)

theorem chain_all_lt {g : Graph} (hw : g.WF) :
    ∀ (l : List Nat) (u : Nat), List.Chain g.Edge u l → ∀ x ∈ l, x < g.node_size := by
  intro l
  induction l with
  | nil => intro u _ x hx; exact absurd hx (List.not_mem_nil x)
  | cons v l' ih =>
    intro u hchain x hx
    rw [List.chain_cons] at hchain
    rcases List.mem_cons.mp hx with rfl | hx
    · exact edge_to_lt hw hchain.1
    · exact ih v hchain.2 x hx

theorem reach_zero {g : Graph} {u : Nat} (hs : g.IsSink u) : ReachSinkLen g u 0 :=
  ⟨[], List.Chain.nil, rfl, hs⟩

theorem reach_zero_sink {g : Graph} {u : Nat} (h : ReachSinkLen g u 0) : g.IsSink u := by
  obtain ⟨l, -, hlen, hsink⟩ := h
  rw [List.length_eq_zero] at hlen
  subst hlen
  exact hsink

theorem reach_succ {g : Graph} {u d : Nat} (h : ReachSinkLen g u (d + 1)) :
    ∃ v, g.Edge u v ∧ ReachSinkLen g v d := by
  obtain ⟨l, hchain, hlen, hsink⟩ := h
  match l, hlen with
  | v :: l', hlen =>
    rw [List.chain_cons] at hchain
    refine ⟨v, hchain.1, l', hchain.2, by simpa using hlen, ?_⟩
    rwa [List.getLastD_cons] at hsink

theorem reach_step {g : Graph} {u v d : Nat} (he : g.Edge u v) (h : ReachSinkLen g v d) :
    ReachSinkLen g u (d + 1) := by
  obtain ⟨l, hchain, hlen, hsink⟩ := h
  exact ⟨v :: l, List.chain_cons.mpr ⟨he, hchain⟩, by simp [hlen], by rwa [List.getLastD_cons]⟩

theorem reach_sink_exists {g : Graph} (hw : g.WF) {u d : Nat} (hu : u < g.node_size)
    (h : ReachSinkLen g u d) : ∃ s, s < g.node_size ∧ g.IsSink s := by
  obtain ⟨l, hchain, -, hsink⟩ := h
  refine ⟨l.getLastD u, ?_, hsink⟩
  rcases List.eq_nil_or_concat l with rfl | ⟨l', b, rfl⟩
  · simpa using hu
  · rw [List.concat_eq_append, List.getLastD_concat]
    exact chain_all_lt hw _ u hchain b (by simp)

theorem chain_transGen_of_mem {α : Type} {R : α → α → Prop} :
    ∀ (l : List α) (u b : α), List.Chain R u l → b ∈ l → Relation.TransGen R u b := by
  intro l
  induction l with
  | nil => intro u b _ hb; exact absurd hb (List.not_mem_nil b)
  | cons v l' ih =>
    intro u b hchain hb
    rw [List.chain_cons] at hchain
    rcases List.mem_cons.mp hb with rfl | hb
    · exact Relation.TransGen.single hchain.1
    · exact Relation.TransGen.head hchain.1 (ih v b hchain.2 hb)

theorem transGen_of_pair_sublist {α : Type} {R : α → α → Prop} :
    ∀ (l : List α) (u a b : α), List.Chain R u l → [a, b].Sublist (u :: l) →
      Relation.TransGen R a b := by
  intro l
  induction l with
  | nil =>
    intro u a b _ hsub
    have := hsub.length_le
    simp at this
  | cons v l' ih =>
    intro u a b hchain hsub
    cases hsub with
    | cons _ h => exact ih v a b (List.chain_cons.mp hchain).2 h
    | cons₂ _ h => exact chain_transGen_of_mem _ _ _ hchain (List.singleton_sublist.mp h)

theorem reach_lt_of_acyclic {g : Graph} (hw : g.WF) (hacyc : Acyclic g) {u d : Nat}
    (hu : u < g.node_size) (h : ReachSinkLen g u d) : d < g.node_size := by
  obtain ⟨l, hchain, hlen, -⟩ := h
  by_contra hge
  push_neg at hge
  have hall : ∀ x ∈ u :: l, x < g.node_size := by
    intro x hx
    rcases List.mem_cons.mp hx with rfl | hx
    · exact hu
    · exact chain_all_lt hw l u hchain x hx
  have hnd : ¬ (u :: l).Nodup := by
    intro hnd
    have h1 : (u :: l).toFinset.card = (u :: l).length := List.toFinset_card_of_nodup hnd
    have h2 : (u :: l).toFinset ⊆ Finset.range g.node_size := by
      intro x hx
      rw [Finset.mem_range]
      exact hall x (List.mem_toFinset.mp hx)
    have h3 := Finset.card_le_card h2
    rw [h1, Finset.card_range] at h3
    have h4 : (u :: l).length = d + 1 := by simp [hlen]
    omega
  obtain ⟨x, hdup⟩ := List.exists_duplicate_iff_not_nodup.mpr hnd
  exact hacyc x (transGen_of_pair_sublist l u x x hchain (List.duplicate_iff_sublist.mp hdup))

theorem initialQueue_mem {g : Graph} (hw : g.WF) {e : Nat × Nat} (h : e ∈ initialQueue g) :
    e.1 < g.node_size ∧ e.2 = 0 ∧ g.IsSink e.1 := by
  unfold initialQueue at h
  obtain ⟨p, hp, hpe⟩ := List.mem_map.mp h
  obtain ⟨hpmem, hpempty⟩ := List.mem_filter.mp hp
  have hget := List.mem_enum_iff_getElem?.mp hpmem
  have hlt : p.1 < g.from_connections.length := by
    by_contra hge
    push_neg at hge
    rw [List.getElem?_eq_none hge] at hget
    exact Option.noConfusion hget
  subst hpe
  refine ⟨by rw [← hw.from_length]; exact hlt, rfl, ?_⟩
  rw [Graph.IsSink, List.getD_eq_getElem _ _ hlt]
  have : g.from_connections[p.1] = p.2 := by
    have := List.getElem?_eq_getElem hlt
    rw [hget] at this
    exact (Option.some.inj this).symm
  rw [this]
  exact List.isEmpty_iff.mp hpempty

theorem sink_mem_initialQueue {g : Graph} (hw : g.WF) {u : Nat} (hu : u < g.node_size)
    (hs : g.IsSink u) : (u, 0) ∈ initialQueue g := by
  unfold initialQueue
  rw [List.mem_map]
  have hlt : u < g.from_connections.length := by rw [hw.from_length]; exact hu
  refine ⟨(u, g.from_connections[u]), ?_, rfl⟩
  rw [List.mem_filter]
  constructor
  · rw [List.mem_enum_iff_getElem?]
    exact List.getElem?_eq_getElem hlt
  · rw [List.isEmpty_iff]
    rw [Graph.IsSink, List.getD_eq_getElem _ _ hlt] at hs
    exact hs

/-! ### The loop invariant of `sortLoop`

`LoopInv` collects everything that holds of the queue and the
`nodes_distance` vector at the top of every iteration of the worklist loop:
lengths and index bounds, monotonicity of queue distances (FIFO + pushes at
`distance + 1` keep the queue non-decreasing and within a window of 1),
every recorded distance is the length of an actual path to a sink, distance
0 occurs exactly at sinks, sinks are either recorded or still queued, and
for every edge `(u, v)` with `v` recorded the source `u` is recorded at a
strictly larger distance or queued at one. -/
structure LoopInv (g : Graph) (q : List (Nat × Nat)) (dists : List Nat) : Prop where
  dlen : dists.length = g.node_size
  qidx : ∀ e ∈ q, e.1 < g.node_size
  qmono : q.Pairwise (fun a b => a.2 ≤ b.2 ∧ b.2 ≤ a.2 + 1)
  dset : ∀ u < g.node_size, distOf dists u ≠ usizeMax →
    distOf dists u < g.node_size ∧ ∀ e ∈ q, distOf dists u ≤ e.2
  qreach : ∀ e ∈ q, ReachSinkLen g e.1 e.2
  dreach : ∀ u < g.node_size, distOf dists u ≠ usizeMax → ReachSinkLen g u (distOf dists u)
  qzero : ∀ e ∈ q, e.2 = 0 → g.IsSink e.1
  dzero : ∀ u < g.node_size, distOf dists u = 0 → g.IsSink u
  qsink : ∀ e ∈ q, g.IsSink e.1 → e.2 = 0
  dsink : ∀ u < g.node_size, g.IsSink u → distOf dists u = usizeMax ∨ distOf dists u = 0
  scover : ∀ u < g.node_size, g.IsSink u → distOf dists u ≠ usizeMax ∨ ∃ d, (u, d) ∈ q
  eclosure : ∀ u v, g.Edge u v → distOf dists v ≠ usizeMax →
    (distOf dists u ≠ usizeMax ∧ distOf dists v + 1 ≤ distOf dists u) ∨
    (∃ d', (u, d') ∈ q ∧ distOf dists v + 1 ≤ d')

theorem loopInv_init {g : Graph} (hw : g.WF) :
    LoopInv g (initialQueue g) (List.replicate g.node_size usizeMax) := by
  have hd : ∀ u, distOf (List.replicate g.node_size usizeMax) u = usizeMax := by
    intro u
    unfold distOf
    rcases Nat.lt_or_ge u g.node_size with h | h
    · rw [List.getD_eq_getElem _ _ (by simpa using h)]
      simp
    · rw [List.getD_eq_default _ _ (by simpa using h)]
  have hz : ∀ e ∈ initialQueue g, e.2 = 0 := fun e he => (initialQueue_mem hw he).2.1
  refine ⟨by simp, ?_, ?_, ?_, ?_, ?_, ?_, ?_, ?_, ?_, ?_, ?_⟩
  · intro e he; exact (initialQueue_mem hw he).1
  · exact List.pairwise_of_forall_mem_list (fun a ha b hb => by rw [hz a ha, hz b hb]; omega)
  · intro u hu hne; exact absurd (hd u) hne
  · intro e he
    have := (initialQueue_mem hw he).2.2
    rw [hz e he]
    exact reach_zero this
  · intro u hu hne; exact absurd (hd u) hne
  · intro e he _; exact (initialQueue_mem hw he).2.2
  · intro u hu h0
    rw [hd u] at h0
    exact absurd h0 (by norm_num [usizeMax])
  · intro e he _; exact hz e he
  · intro u hu _; exact Or.inl (hd u)
  · intro u hu hs
    exact Or.inr ⟨0, sink_mem_initialQueue hw hu hs⟩
  · intro u v _ hv; exact absurd (hd v) hv

theorem loopInv_skip {g : Graph} (hw : g.WF) {current dist : Nat} {rest : List (Nat × Nat)}
    {dists : List Nat} (h : LoopInv g ((current, dist) :: rest) dists)
    (hskip : distOf dists current = dist) (hd : dist < g.node_size) :
    LoopInv g rest dists := by
  have hmax : dist ≠ usizeMax := by have := hw.size_small; omega
  refine ⟨h.dlen, ?_, ?_, ?_, ?_, h.dreach, ?_, h.dzero, ?_, h.dsink, ?_, ?_⟩
  · intro e he; exact h.qidx e (List.mem_cons_of_mem _ he)
  · exact (List.pairwise_cons.mp h.qmono).2
  · intro u hu hne
    obtain ⟨h1, h2⟩ := h.dset u hu hne
    exact ⟨h1, fun e he => h2 e (List.mem_cons_of_mem _ he)⟩
  · intro e he; exact h.qreach e (List.mem_cons_of_mem _ he)
  · intro e he; exact h.qzero e (List.mem_cons_of_mem _ he)
  · intro e he; exact h.qsink e (List.mem_cons_of_mem _ he)
  · intro u hu hs
    rcases h.scover u hu hs with h1 | ⟨d, hd2⟩
    · exact Or.inl h1
    · rcases List.mem_cons.mp hd2 with heq | hmem
      · rw [Prod.mk.injEq] at heq
        obtain ⟨rfl, rfl⟩ := heq
        left; rw [hskip]; exact hmax
      · exact Or.inr ⟨d, hmem⟩
  · intro u v he hv
    rcases h.eclosure u v he hv with h1 | ⟨d', hd', hle⟩
    · exact Or.inl h1
    · rcases List.mem_cons.mp hd' with heq | hmem
      · rw [Prod.mk.injEq] at heq
        obtain ⟨rfl, rfl⟩ := heq
        left
        rw [hskip]
        exact ⟨hmax, hle⟩
      · exact Or.inr ⟨d', hmem, hle⟩

theorem loopInv_assign {g : Graph} (hw : g.WF) {current dist : Nat} {rest : List (Nat × Nat)}
    {dists : List Nat} (h : LoopInv g ((current, dist) :: rest) dists)
    (hne : distOf dists current ≠ dist) (hd : dist < g.node_size) :
    LoopInv g (rest ++ (g.to_connections.getD current []).map (fun c => (c.from_index, dist + 1)))
      (dists.set current dist) := by
  set pushes := (g.to_connections.getD current []).map (fun c => (c.from_index, dist + 1)) with hpushes
  have hcur : current < g.node_size := h.qidx _ (List.mem_cons_self _ _)
  have hcurlen : current < dists.length := by rw [h.dlen]; exact hcur
  have hDself : distOf (dists.set current dist) current = dist := distOf_set_self hcurlen
  have hDne : ∀ u, u ≠ current → distOf (dists.set current dist) u = distOf dists u :=
    fun u hu => distOf_set_ne hu
  have hmax : dist ≠ usizeMax := by have := hw.size_small; omega
  have hpush_mem : ∀ e ∈ pushes, e.2 = dist + 1 ∧ g.Edge e.1 current := by
    intro e he
    rw [hpushes, List.mem_map] at he
    obtain ⟨c, hc, rfl⟩ := he
    exact ⟨rfl, ⟨c, hc, rfl⟩⟩
  have hedge_push : ∀ u, g.Edge u current → (u, dist + 1) ∈ pushes := by
    rintro u ⟨c, hc, rfl⟩
    rw [hpushes, List.mem_map]
    exact ⟨c, hc, rfl⟩
  have hhead := List.pairwise_cons.mp h.qmono
  have hreach_cur : ReachSinkLen g current dist := h.qreach _ (List.mem_cons_self _ _)
  refine ⟨by simp [h.dlen], ?_, ?_, ?_, ?_, ?_, ?_, ?_, ?_, ?_, ?_, ?_⟩
  · intro e he
    rcases List.mem_append.mp he with he | he
    · exact h.qidx e (List.mem_cons_of_mem _ he)
    · exact edge_from_lt hw (hpush_mem e he).2
  · rw [List.pairwise_append]
    refine ⟨hhead.2, ?_, ?_⟩
    · exact List.pairwise_of_forall_mem_list (fun a ha b hb => by
        rw [(hpush_mem a ha).1, (hpush_mem b hb).1]; omega)
    · intro a ha b hb
      have h1 := hhead.1 a ha
      have h2 := (hpush_mem b hb).1
      omega
  · intro u hu hneq
    by_cases huc : u = current
    · subst huc
      rw [hDself]
      refine ⟨hd, fun e he => ?_⟩
      rcases List.mem_append.mp he with he | he
      · exact (hhead.1 e he).1
      · rw [(hpush_mem e he).1]; omega
    · rw [hDne u huc] at hneq ⊢
      obtain ⟨h1, h2⟩ := h.dset u hu hneq
      refine ⟨h1, fun e he => ?_⟩
      rcases List.mem_append.mp he with he | he
      · exact h2 e (List.mem_cons_of_mem _ he)
      · have h3 := h2 _ (List.mem_cons_self _ _)
        rw [(hpush_mem e he).1]
        omega
  · intro e he
    rcases List.mem_append.mp he with he | he
    · exact h.qreach e (List.mem_cons_of_mem _ he)
    · obtain ⟨h2, hedge⟩ := hpush_mem e he
      have : ReachSinkLen g e.1 (dist + 1) := reach_step hedge hreach_cur
      rwa [← h2] at this
  · intro u hu hneq
    by_cases huc : u = current
    · subst huc
      rw [hDself]
      exact hreach_cur
    · rw [hDne u huc] at hneq ⊢
      exact h.dreach u hu hneq
  · intro e he he0
    rcases List.mem_append.mp he with he | he
    · exact h.qzero e (List.mem_cons_of_mem _ he) he0
    · rw [(hpush_mem e he).1] at he0
      omega
  · intro u hu h0
    by_cases huc : u = current
    · subst huc
      rw [hDself] at h0
      subst h0
      exact h.qzero _ (List.mem_cons_self _ _) rfl
    · rw [hDne u huc] at h0
      exact h.dzero u hu h0
  · intro e he hs
    rcases List.mem_append.mp he with he | he
    · exact h.qsink e (List.mem_cons_of_mem _ he) hs
    · exact absurd (hpush_mem e he).2 (sink_no_edge hw hs)
  · intro u hu hs
    by_cases huc : u = current
    · subst huc
      right
      rw [hDself]
      exact h.qsink _ (List.mem_cons_self _ _) hs
    · rw [hDne u huc]
      exact h.dsink u hu hs
  · intro u hu hs
    rcases h.scover u hu hs with h1 | ⟨d, hd2⟩
    · by_cases huc : u = current
      · subst huc; left; rw [hDself]; exact hmax
      · left; rw [hDne u huc]; exact h1
    · rcases List.mem_cons.mp hd2 with heq | hmem
      · rw [Prod.mk.injEq] at heq
        obtain ⟨rfl, rfl⟩ := heq
        left; rw [hDself]; exact hmax
      · exact Or.inr ⟨d, List.mem_append.mpr (Or.inl hmem)⟩
  · intro u v he hv
    by_cases hvc : v = current
    · subst hvc
      right
      exact ⟨dist + 1, List.mem_append.mpr (Or.inr (hedge_push u he)), by rw [hDself]⟩
    · rw [hDne v hvc] at hv ⊢
      rcases h.eclosure u v he hv with ⟨hu1, hu2⟩ | ⟨d', hd', hle⟩
      · by_cases huc : u = current
        · subst huc
          left
          rw [hDself]
          have hle2 : distOf dists u ≤ dist :=
            (h.dset u hcur hu1).2 _ (List.mem_cons_self _ _)
          exact ⟨hmax, by omega⟩
        · left
          rw [hDne u huc]
          exact ⟨hu1, hu2⟩
      · rcases List.mem_cons.mp hd' with heq | hmem
        · rw [Prod.mk.injEq] at heq
          obtain ⟨rfl, rfl⟩ := heq
          left
          rw [hDself]
          exact ⟨hmax, hle⟩
        · exact Or.inr ⟨d', List.mem_append.mpr (Or.inl hmem), hle⟩

/-! ### Master lemmas about `sortLoop` runs -/

theorem sortLoop_ok_inv {g : Graph} (hw : g.WF) :
    ∀ (fuel : Nat) (q : List (Nat × Nat)) (dists final : List Nat),
      LoopInv g q dists → sortLoop g fuel q dists = some (.ok final) → LoopInv g [] final := by
  intro fuel
  induction fuel with
  | zero =>
    intro q dists final hi hrun
    match q with
    | [] =>
      have hfin : dists = final := by simpa [sortLoop] using hrun
      subst hfin
      exact hi
    | e :: rest => simp [sortLoop] at hrun
  | succ fuel ih =>
    intro q dists final hi hrun
    match q with
    | [] =>
      have hfin : dists = final := by simpa [sortLoop] using hrun
      subst hfin
      exact hi
    | (current, dist) :: rest =>
      rw [sortLoop] at hrun
      split_ifs at hrun with h1 h2
      · simp at hrun
      · push_neg at h1
        exact ih rest dists final (loopInv_skip hw hi h2 h1) hrun
      · push_neg at h1
        exact ih _ _ final (loopInv_assign hw hi h2 h1) hrun

theorem sortLoop_error_shape {g : Graph} (hw : g.WF) :
    ∀ (fuel : Nat) (q : List (Nat × Nat)) (dists : List Nat) (e : GraphError),
      LoopInv g q dists → sortLoop g fuel q dists = some (.error e) →
      ∃ u, u < g.node_size ∧
        e = .internalError ("Cycle detected at node " ++ (g.node u).name) := by
  intro fuel
  induction fuel with
  | zero =>
    intro q dists e hi hrun
    match q with
    | [] => simp [sortLoop] at hrun
    | e' :: rest => simp [sortLoop] at hrun
  | succ fuel ih =>
    intro q dists e hi hrun
    match q with
    | [] => simp [sortLoop] at hrun
    | (current, dist) :: rest =>
      rw [sortLoop] at hrun
      split_ifs at hrun with h1 h2
      · have he : e = .internalError ("Cycle detected at node " ++ (g.node current).name) := by
          simpa using hrun.symm
        exact ⟨current, hi.qidx _ (List.mem_cons_self _ _), he⟩
      · push_neg at h1
        exact ih rest dists e (loopInv_skip hw hi h2 h1) hrun
      · push_neg at h1
        exact ih _ _ e (loopInv_assign hw hi h2 h1) hrun

theorem sortLoop_no_error_of_acyclic {g : Graph} (hw : g.WF) (hacyc : Acyclic g) :
    ∀ (fuel : Nat) (q : List (Nat × Nat)) (dists : List Nat) (e : GraphError),
      LoopInv g q dists → sortLoop g fuel q dists ≠ some (.error e) := by
  intro fuel
  induction fuel with
  | zero =>
    intro q dists e hi hrun
    match q with
    | [] => simp [sortLoop] at hrun
    | e' :: rest => simp [sortLoop] at hrun
  | succ fuel ih =>
    intro q dists e hi hrun
    match q with
    | [] => simp [sortLoop] at hrun
    | (current, dist) :: rest =>
      rw [sortLoop] at hrun
      split_ifs at hrun with h1 h2
      · have hreach := hi.qreach _ (List.mem_cons_self (current, dist) rest)
        have hlt := reach_lt_of_acyclic hw hacyc
          (hi.qidx _ (List.mem_cons_self (current, dist) rest)) hreach
        omega
      · push_neg at h1
        exact ih rest dists e (loopInv_skip hw hi h2 h1) hrun
      · push_neg at h1
        exact ih _ _ e (loopInv_assign hw hi h2 h1) hrun

/-! ### Termination: a potential function bounds the number of iterations -/

/-- Number of further values that can still be written over a recorded
distance `d` (all assignments to one node are strictly increasing and below
the node count). -/
def remainingAt (n d : Nat) : Nat := if d = usizeMax then n else n - 1 - d

/-- Potential of a loop state: queue length plus (weighted) total
head-room of the distance vector.  Strictly decreases at every iteration. -/
def potential (g : Graph) (q : List (Nat × Nat)) (dists : List Nat) : Nat :=
  q.length + (connectionTotal g + 1) * ((dists.map (remainingAt g.node_size)).sum)

theorem pushLen_le (g : Graph) (current : Nat) :
    (g.to_connections.getD current []).length ≤ connectionTotal g := by
  rcases Nat.lt_or_ge current g.to_connections.length with h | h
  · rw [List.getD_eq_getElem _ _ h]
    exact List.single_le_sum (fun x _ => Nat.zero_le x) _
      (List.mem_map.mpr ⟨g.to_connections[current], List.getElem_mem h, rfl⟩)
  · rw [List.getD_eq_default _ _ h]
    exact Nat.zero_le _

theorem sum_map_set_lt {dists : List Nat} {current distV n : Nat}
    (hcur : current < dists.length)
    (hdrop : remainingAt n distV + 1 ≤ remainingAt n (dists[current])) :
    (((dists.set current distV).map (remainingAt n)).sum + 1 ≤
      (dists.map (remainingAt n)).sum) := by
  rw [List.map_set]
  have hlen : current < (dists.map (remainingAt n)).length := by simpa using hcur
  rw [List.sum_set]
  have hsplit : (dists.map (remainingAt n)).sum =
      ((dists.map (remainingAt n)).take current).sum +
      ((dists.map (remainingAt n))[current] +
        ((dists.map (remainingAt n)).drop (current + 1)).sum) := by
    conv_lhs => rw [← List.take_append_drop current (dists.map (remainingAt n))]
    rw [List.sum_append, List.drop_eq_getElem_cons hlen, List.sum_cons]
  rw [hsplit, if_pos hlen]
  have : (dists.map (remainingAt n))[current] = remainingAt n (dists[current]) := by
    simp
  omega

theorem sortLoop_isSome {g : Graph} (hw : g.WF) :
    ∀ (fuel : Nat) (q : List (Nat × Nat)) (dists : List Nat),
      LoopInv g q dists → potential g q dists < fuel →
      sortLoop g fuel q dists ≠ none := by
  intro fuel
  induction fuel with
  | zero => intro q dists hi hpot; omega
  | succ fuel ih =>
    intro q dists hi hpot
    match q with
    | [] => simp [sortLoop]
    | (current, dist) :: rest =>
      rw [sortLoop]
      split_ifs with h1 h2
      · simp
      · push_neg at h1
        apply ih rest dists (loopInv_skip hw hi h2 h1)
        unfold potential at hpot ⊢
        simp only [List.length_cons] at hpot
        omega
      · push_neg at h1
        apply ih _ _ (loopInv_assign hw hi h2 h1)
        have hcur : current < g.node_size := hi.qidx _ (List.mem_cons_self _ _)
        have hcurlen : current < dists.length := by rw [hi.dlen]; exact hcur
        have hold : dists[current] = distOf dists current := by
          unfold distOf
          rw [List.getD_eq_getElem _ _ hcurlen]
        have hdrop : remainingAt g.node_size dist + 1 ≤
            remainingAt g.node_size (dists[current]) := by
          rw [hold]
          unfold remainingAt
          have hmax : dist ≠ usizeMax := by have := hw.size_small; omega
          by_cases hun : distOf dists current = usizeMax
          · rw [if_pos hun, if_neg hmax]
            omega
          · rw [if_neg hun, if_neg hmax]
            have hle : distOf dists current ≤ dist :=
              (hi.dset current hcur hun).2 _ (List.mem_cons_self _ _)
            have hlt : distOf dists current < g.node_size := (hi.dset current hcur hun).1
            have hne2 : distOf dists current ≠ dist := h2
            omega
        have hS := sum_map_set_lt hcurlen hdrop
        have hpush := pushLen_le g current
        unfold potential at hpot ⊢
        rw [List.length_append, List.length_map]
        simp only [List.length_cons] at hpot
        have hmul := Nat.mul_le_mul_left (connectionTotal g + 1) hS
        rw [Nat.mul_add, Nat.mul_one] at hmul
        omega

/-- The fuel `sortFuel` always suffices for well-formed graphs: the worklist
loop terminates, by draining the queue or returning an error. -/
theorem sortLoop_traverses {g : Graph} (hw : g.WF) :
    sortLoop g (sortFuel g) (initialQueue g) (List.replicate g.node_size usizeMax) ≠ none := by
  apply sortLoop_isSome hw _ _ _ (loopInv_init hw)
  unfold potential sortFuel
  have h1 : (initialQueue g).length ≤ g.node_size := by
    unfold initialQueue
    rw [List.length_map]
    calc ((g.from_connections.enum.filter (fun p => p.2.isEmpty)).length)
        ≤ g.from_connections.enum.length := List.length_filter_le _ _
      _ = g.from_connections.length := List.enum_length
      _ = g.node_size := hw.from_length
  have h2 : ((List.replicate g.node_size usizeMax).map (remainingAt g.node_size)).sum =
      g.node_size * g.node_size := by
    rw [List.map_replicate, List.sum_replicate, smul_eq_mul]
    unfold remainingAt
    rw [if_pos rfl]
  rw [h2]
  omega

/-! ### Consequences of the invariant once the queue has drained -/

theorem final_covered {g : Graph} (hw : g.WF) {dists : List Nat} (hi : LoopInv g [] dists) :
    ∀ (d u : Nat), u < g.node_size → ReachSinkLen g u d → distOf dists u ≠ usizeMax := by
  intro d
  induction d with
  | zero =>
    intro u hu hr
    rcases hi.scover u hu (reach_zero_sink hr) with h1 | ⟨d', hd'⟩
    · exact h1
    · exact absurd hd' (List.not_mem_nil _)
  | succ d ih =>
    intro u hu hr
    obtain ⟨v, hedge, hrv⟩ := reach_succ hr
    have hvset := ih v (edge_to_lt hw hedge) hrv
    rcases hi.eclosure u v hedge hvset with ⟨h1, -⟩ | ⟨d', hd', -⟩
    · exact h1
    · exact absurd hd' (List.not_mem_nil _)

theorem final_edge {g : Graph} {dists : List Nat} (hi : LoopInv g [] dists)
    {u v : Nat} (he : g.Edge u v) (hv : distOf dists v ≠ usizeMax) :
    distOf dists u ≠ usizeMax ∧ distOf dists v + 1 ≤ distOf dists u := by
  rcases hi.eclosure u v he hv with h1 | ⟨d', hd', -⟩
  · exact h1
  · exact absurd hd' (List.not_mem_nil _)

theorem final_transGen {g : Graph} {dists : List Nat} (hi : LoopInv g [] dists)
    {a b : Nat} (h : Relation.TransGen g.Edge a b) (hb : distOf dists b ≠ usizeMax) :
    distOf dists a ≠ usizeMax ∧ distOf dists b < distOf dists a := by
  induction h with
  | single h1 =>
    obtain ⟨h2a, h2b⟩ := final_edge hi h1 hb
    exact ⟨h2a, by omega⟩
  | tail hab hbc ih =>
    obtain ⟨h2a, h2b⟩ := final_edge hi hbc hb
    obtain ⟨h3a, h3b⟩ := ih h2a
    exact ⟨h3a, by omega⟩

/-! ### Facts about the stable sort and the level walk -/

theorem distLe_trans {dists : List Nat} : ∀ (a b c : Nat),
    distLe dists a b = true → distLe dists b c = true → distLe dists a c = true := by
  intro a b c
  unfold distLe
  simp only [decide_eq_true_eq]
  omega

theorem distLe_total {dists : List Nat} : ∀ (a b : Nat),
    (distLe dists a b || distLe dists b a) = true := by
  intro a b
  unfold distLe
  simp only [Bool.or_eq_true, decide_eq_true_eq]
  omega

/-- Lexicographic strengthening of the sort relation: keys non-decreasing,
and on equal keys the values strictly increase (stability relative to a
strictly increasing input). -/
def lexRel (le : Nat → Nat → Bool) (a b : Nat) : Prop :=
  le a b = true ∧ (le b a = true → a < b)

theorem mem_insertSorted {le : Nat → Nat → Bool} {a x : Nat} :
    ∀ {l : List Nat}, x ∈ insertSorted le a l ↔ x = a ∨ x ∈ l := by
  intro l
  induction l with
  | nil => simp [insertSorted]
  | cons b l ih =>
    rw [insertSorted]
    split_ifs with h
    · simp [List.mem_cons]
    · rw [List.mem_cons, ih, List.mem_cons]
      tauto

theorem insertSorted_perm (le : Nat → Nat → Bool) (a : Nat) :
    ∀ (l : List Nat), (insertSorted le a l).Perm (a :: l) := by
  intro l
  induction l with
  | nil => simp [insertSorted]
  | cons b l ih =>
    rw [insertSorted]
    split_ifs with h
    · exact List.Perm.refl _
    · exact (ih.cons b).trans (List.Perm.swap a b l)

theorem insertionSort_perm (le : Nat → Nat → Bool) :
    ∀ (l : List Nat), (insertionSort le l).Perm l := by
  intro l
  induction l with
  | nil => exact List.Perm.refl _
  | cons a l ih =>
    rw [insertionSort]
    exact (insertSorted_perm le a (insertionSort le l)).trans (List.Perm.cons a ih)

theorem insertSorted_pairwise {le : Nat → Nat → Bool}
    (htot : ∀ a b, (le a b || le b a) = true)
    (htrans : ∀ a b c, le a b = true → le b c = true → le a c = true) {a : Nat} :
    ∀ {l : List Nat}, l.Pairwise (lexRel le) → (∀ x ∈ l, a < x) →
      (insertSorted le a l).Pairwise (lexRel le) := by
  intro l
  induction l with
  | nil =>
    intro _ _
    simp [insertSorted, List.pairwise_cons]
  | cons b l ih =>
    intro hp hlt
    rw [List.pairwise_cons] at hp
    rw [insertSorted]
    split_ifs with h
    · rw [List.pairwise_cons]
      constructor
      · intro y hy
        rcases List.mem_cons.mp hy with rfl | hy
        · exact ⟨h, fun _ => hlt _ (List.mem_cons_self _ _)⟩
        · exact ⟨htrans a b y h (hp.1 y hy).1, fun _ => hlt _ (List.mem_cons_of_mem _ hy)⟩
      · exact List.pairwise_cons.mpr hp
    · rw [List.pairwise_cons]
      constructor
      · intro y hy
        rcases mem_insertSorted.mp hy with rfl | hy
        · have hba : le b y = true := by
            have := htot y b
            rcases Bool.or_eq_true_iff.mp this with h1 | h1
            · exact absurd h1 h
            · exact h1
          exact ⟨hba, fun habs => absurd habs h⟩
        · exact hp.1 y hy
      · exact ih hp.2 (fun x hx => hlt x (List.mem_cons_of_mem _ hx))

theorem insertionSort_pairwise {le : Nat → Nat → Bool}
    (htot : ∀ a b, (le a b || le b a) = true)
    (htrans : ∀ a b c, le a b = true → le b c = true → le a c = true) :
    ∀ {l : List Nat}, l.Pairwise (· < ·) → (insertionSort le l).Pairwise (lexRel le) := by
  intro l
  induction l with
  | nil => intro _; exact List.Pairwise.nil
  | cons a l ih =>
    intro hp
    rw [List.pairwise_cons] at hp
    rw [insertionSort]
    refine insertSorted_pairwise htot htrans (ih hp.2) ?_
    intro x hx
    exact hp.1 x ((insertionSort_perm le l).mem_iff.mp hx)

theorem length_sortedIndices (g : Graph) (dists : List Nat) :
    (sortedIndices g dists).length = g.node_size := by
  unfold sortedIndices
  rw [(insertionSort_perm _ _).length_eq, List.length_range]

theorem length_sortedDepths (g : Graph) (dists : List Nat) :
    (sortedDepths g dists).length = g.node_size := by
  unfold sortedDepths
  rw [List.length_map, length_sortedIndices]

theorem sortedIndices_perm (g : Graph) (dists : List Nat) :
    (sortedIndices g dists).Perm (List.range g.node_size) :=
  insertionSort_perm _ _

theorem sortedIndices_nodup (g : Graph) (dists : List Nat) :
    (sortedIndices g dists).Nodup :=
  (sortedIndices_perm g dists).nodup_iff.mpr (List.nodup_range _)

theorem sortedIndices_mem {g : Graph} {dists : List Nat} {i : Nat}
    (h : i ∈ sortedIndices g dists) : i < g.node_size :=
  List.mem_range.mp ((sortedIndices_perm g dists).mem_iff.mp h)

theorem mem_sortedIndices {g : Graph} {dists : List Nat} {i : Nat}
    (h : i < g.node_size) : i ∈ sortedIndices g dists :=
  (sortedIndices_perm g dists).mem_iff.mpr (List.mem_range.mpr h)

theorem sortedIndices_lexPairwise (g : Graph) (dists : List Nat) :
    (sortedIndices g dists).Pairwise (lexRel (distLe dists)) :=
  insertionSort_pairwise distLe_total distLe_trans (List.pairwise_lt_range _)

theorem sortedIndices_sorted (g : Graph) (dists : List Nat) :
    (sortedIndices g dists).Pairwise (fun a b => dists.getD a 0 ≤ dists.getD b 0) := by
  refine (sortedIndices_lexPairwise g dists).imp ?_
  intro a b hab
  have := hab.1
  unfold distLe at this
  simpa using this

theorem sortedDepths_sorted (g : Graph) (dists : List Nat) :
    (sortedDepths g dists).Pairwise (· ≤ ·) := by
  unfold sortedDepths
  rw [List.pairwise_map]
  exact sortedIndices_sorted g dists

/-- Stability: positions with equal depth keys appear in increasing original
node-index order (Rust `sort_by` is stable and the input is `0..n`). -/
theorem sortedIndices_lex {g : Graph} {dists : List Nat} {i j : Nat}
    (hi : i < (sortedIndices g dists).length) (hj : j < (sortedIndices g dists).length)
    (hij : i < j)
    (hkey : dists.getD ((sortedIndices g dists)[i]) 0 =
      dists.getD ((sortedIndices g dists)[j]) 0) :
    (sortedIndices g dists)[i] < (sortedIndices g dists)[j] := by
  have hlex := List.pairwise_iff_getElem.mp (sortedIndices_lexPairwise g dists) i j hi hj hij
  refine hlex.2 ?_
  unfold distLe
  simp only [decide_eq_true_eq]
  rw [hkey]

/-- Every member of a `≤`-sorted list is bounded by its last element. -/
theorem sorted_le_getLast {l : List Nat} (hs : l.Pairwise (· ≤ ·)) (hne : l ≠ [])
    {x : Nat} (hx : x ∈ l) : x ≤ l.getLast hne := by
  obtain ⟨i, hi, rfl⟩ := List.mem_iff_getElem.mp hx
  rw [List.getLast_eq_getElem]
  rcases Nat.lt_or_ge i (l.length - 1) with h | h
  · exact List.pairwise_iff_getElem.mp hs i (l.length - 1) hi (by omega) h
  · have : i = l.length - 1 := by omega
    subst this
    exact Nat.le_refl _

theorem getD_set_self {l : List Nat} {i v : Nat} (h : i < l.length) :
    (l.set i v).getD i 0 = v := by
  rw [List.getD_eq_getElem _ _ (by simpa using h), List.getElem_set_self]

theorem getD_set_ne {l : List Nat} {i v u : Nat} (h : u ≠ i) :
    (l.set i v).getD u 0 = l.getD u 0 := by
  rw [List.getD_eq_getElem?_getD, List.getD_eq_getElem?_getD, List.getElem?_set_ne (Ne.symm h)]

theorem getD_replicate_zero (n x : Nat) : (List.replicate n (0 : Nat)).getD x 0 = 0 := by
  rcases Nat.lt_or_ge x n with h | h
  · rw [List.getD_eq_getElem _ _ (by simpa using h), List.getElem_replicate]
  · rw [List.getD_eq_default _ _ (by simpa using h)]

theorem levelWalk_fst_length : ∀ (l : List Nat) (last idx : Nat) (lev : List Nat),
    (levelWalk l last idx lev).1.length = l.length := by
  intro l
  induction l with
  | nil => intros; rfl
  | cons d rest ih =>
    intro last idx lev
    simp only [levelWalk, List.length_cons]
    rw [ih]

theorem levelWalk_snd_length : ∀ (l : List Nat) (last idx : Nat) (lev : List Nat),
    (levelWalk l last idx lev).2.length = lev.length := by
  intro l
  induction l with
  | nil => intros; rfl
  | cons d rest ih =>
    intro last idx lev
    simp only [levelWalk]
    rw [ih, List.length_set]

/-- The first `index_at_depth` entry is 0 (whatever the first depth is, the
within-level counter starts at 0). -/
theorem levelWalk_head (l : List Nat) (last : Nat) (lev : List Nat) :
    (levelWalk l last 0 lev).1.getD 0 0 = 0 := by
  match l with
  | [] => rfl
  | d :: rest =>
    simp only [levelWalk, List.getD_cons_zero]
    by_cases h : d ≠ last
    · rw [if_pos h]
    · rw [if_neg h]

/-- Walking left to right, the within-level index resets to 0 when the depth
changes and increments by 1 when it stays. -/
theorem levelWalk_adjacent : ∀ (i : Nat) (l : List Nat) (last idx : Nat) (lev : List Nat),
    i + 1 < l.length →
    ((l.getD (i + 1) 0 = l.getD i 0 →
        (levelWalk l last idx lev).1.getD (i + 1) 0 =
          (levelWalk l last idx lev).1.getD i 0 + 1) ∧
      (l.getD (i + 1) 0 ≠ l.getD i 0 →
        (levelWalk l last idx lev).1.getD (i + 1) 0 = 0)) := by
  intro i
  induction i with
  | zero =>
    intro l last idx lev hlen
    match l with
    | d1 :: d2 :: rest =>
      simp only [levelWalk, List.getD_cons_zero, List.getD_cons_succ]
      constructor
      · intro heq
        rw [if_neg (by simpa using heq)]
      · intro hne
        rw [if_pos (by simpa using hne)]
  | succ i ih =>
    intro l last idx lev hlen
    match l with
    | d :: rest =>
      simp only [levelWalk, List.getD_cons_succ]
      exact ih rest d _ _ (by simpa using hlen)

/-- After the walk, entry `x` of `nodes_in_level` is the number of positions
whose depth is `x` — provided the depth list is sorted and all depths are in
range of the level vector. -/
theorem levelWalk_count : ∀ (l p lev : List Nat),
    (p ++ l).Pairwise (· ≤ ·) →
    (∀ x ∈ p ++ l, x < lev.length) →
    (∀ x, lev.getD x 0 = p.count x) →
    ∀ x, (levelWalk l (p.getLastD 0) (p.count (p.getLastD 0)) lev).2.getD x 0 =
      (p ++ l).count x := by
  intro l
  induction l with
  | nil =>
    intro p lev hsort hbound hcount x
    simpa [levelWalk] using hcount x
  | cons d rest ih =>
    intro p lev hsort hbound hcount x
    have hd_nil : d < lev.length := hbound d (by simp)
    have hcnt : (if d ≠ p.getLastD 0 then 0 else p.count (p.getLastD 0)) = p.count d := by
      by_cases h : d = p.getLastD 0
      · rw [if_neg (by simpa using h), h]
      · rw [if_pos h]
        symm
        rw [List.count_eq_zero]
        intro hdp
        apply h
        have hpne : p ≠ [] := by rintro rfl; exact absurd hdp (List.not_mem_nil d)
        have hple : ∀ y ∈ p, y ≤ d := by
          have hcross := (List.pairwise_append.mp hsort).2.2
          exact fun y hy => hcross y hy d (by simp)
        have hgl : p.getLastD 0 = p.getLast hpne := by
          rw [List.getLastD_eq_getLast?, List.getLast?_eq_getLast p hpne]
          rfl
        have hsp : p.Pairwise (· ≤ ·) := (List.pairwise_append.mp hsort).1
        have h1 : d ≤ p.getLast hpne := sorted_le_getLast hsp hpne hdp
        have h2 : p.getLast hpne ≤ d := hple _ (List.getLast_mem hpne)
        rw [hgl]
        omega
    have hcount' : ∀ y, (lev.set d (p.count d + 1)).getD y 0 = (p ++ [d]).count y := by
      intro y
      by_cases hy : y = d
      · subst hy
        rw [getD_set_self hd_nil]
        simp [List.count_append]
      · rw [getD_set_ne hy, hcount y]
        have h0 : List.count y [d] = 0 := by
          simp [List.count_singleton]
          omega
        rw [List.count_append, h0]
        omega
    have hrec := ih (p ++ [d]) (lev.set d (p.count d + 1))
      (by simpa using hsort)
      (by intro z hz; rw [List.length_set]; apply hbound; simpa using hz)
      hcount' x
    rw [List.getLastD_concat] at hrec
    have hccount : (p ++ [d]).count d = p.count d + 1 := by simp [List.count_append]
    rw [hccount] at hrec
    simp only [levelWalk]
    rw [hcnt]
    simpa using hrec

/-! ### Inversion lemmas for the post-loop phase -/

theorem key_eq_distOf {dists : List Nat} {n : Nat} (hlen : dists.length = n) {i : Nat}
    (hi : i < n) : dists.getD i 0 = distOf dists i := by
  unfold distOf
  rw [List.getD_eq_getElem _ _ (by omega), List.getD_eq_getElem _ _ (by omega)]

theorem mem_sortedDepths {g : Graph} {dists : List Nat} {x : Nat}
    (h : x ∈ sortedDepths g dists) : ∃ i, i < g.node_size ∧ x = dists.getD i 0 := by
  unfold sortedDepths at h
  obtain ⟨i, hi, rfl⟩ := List.mem_map.mp h
  exact ⟨i, sortedIndices_mem hi, rfl⟩

/-- When every node has a recorded distance, the post-loop phase succeeds. -/
theorem postprocess_ok {g : Graph} (hw : g.WF) {dists : List Nat}
    (hi : LoopInv g [] dists) (hn : 0 < g.node_size)
    (hall : ∀ u < g.node_size, distOf dists u ≠ usizeMax) :
    ∃ so, postprocess g dists = some so := by
  have hlen : (sortedDepths g dists).length = g.node_size := length_sortedDepths g dists
  have hne : sortedDepths g dists ≠ [] := by
    intro h
    rw [h] at hlen
    simp at hlen
    omega
  have hlast : (sortedDepths g dists).getLast? = some ((sortedDepths g dists).getLast hne) :=
    List.getLast?_eq_getLast _ hne
  obtain ⟨i, hi2, hkey⟩ := mem_sortedDepths (List.getLast_mem hne)
  have hval : (sortedDepths g dists).getLast hne = distOf dists i := by
    rw [hkey, key_eq_distOf hi.dlen hi2]
  have hlt : distOf dists i < g.node_size := (hi.dset i hi2 (hall i hi2)).1
  have hnmax : (sortedDepths g dists).getLast hne ≠ usizeMax := by
    rw [hval]
    have := hw.size_small
    omega
  simp only [postprocess, hlast]
  rw [if_neg hnmax]
  exact ⟨_, rfl⟩

/-- When some node in range keeps the sentinel, the post-loop phase panics
(`usize::MAX + 1` overflow / out-of-range indexing). -/
theorem postprocess_none {g : Graph} (hw : g.WF) {dists : List Nat}
    (hi : LoopInv g [] dists) {w : Nat} (hwlt : w < g.node_size)
    (hunset : distOf dists w = usizeMax) :
    postprocess g dists = none := by
  have hlen : (sortedDepths g dists).length = g.node_size := length_sortedDepths g dists
  have hne : sortedDepths g dists ≠ [] := by
    intro h
    rw [h] at hlen
    simp at hlen
    omega
  have hlast : (sortedDepths g dists).getLast? = some ((sortedDepths g dists).getLast hne) :=
    List.getLast?_eq_getLast _ hne
  have hmemw : usizeMax ∈ sortedDepths g dists := by
    unfold sortedDepths
    rw [← hunset, ← key_eq_distOf hi.dlen hwlt]
    exact List.mem_map_of_mem _ (mem_sortedIndices hwlt)
  have hle : usizeMax ≤ (sortedDepths g dists).getLast hne :=
    sorted_le_getLast (sortedDepths_sorted g dists) hne hmemw
  have hup : (sortedDepths g dists).getLast hne ≤ usizeMax := by
    obtain ⟨i, hi2, hkey⟩ := mem_sortedDepths (List.getLast_mem hne)
    rw [hkey, key_eq_distOf hi.dlen hi2]
    by_cases h : distOf dists i = usizeMax
    · omega
    · have := (hi.dset i hi2 h).1
      have := hw.size_small
      omega
  have heq : (sortedDepths g dists).getLast hne = usizeMax := by omega
  simp [postprocess, hlast, heq]

/-- Inverting a successful `reverse_topological_sort` run. -/
theorem rts_ok_inv {g : Graph} {so : SortOrder}
    (h : g.reverse_topological_sort = some (.ok so)) :
    ∃ dists, sortLoop g (sortFuel g) (initialQueue g) (List.replicate g.node_size usizeMax)
      = some (.ok dists) ∧ postprocess g dists = some so := by
  rw [Graph.reverse_topological_sort] at h
  split_ifs at h with h1
  · simp at h
  · rcases hrun : sortLoop g (sortFuel g) (initialQueue g)
        (List.replicate g.node_size usizeMax) with _ | r
    · rw [hrun] at h
      simp at h
    · rcases r with e | dists
      · rw [hrun] at h
        simp at h
      · rw [hrun] at h
        simp only [Option.map_eq_some'] at h
        obtain ⟨so', hso', heq⟩ := h
        have : so' = so := by
          injection heq with h2
        subst this
        exact ⟨dists, rfl, hso'⟩

/-- Inverting a successful `postprocess`. -/
theorem postprocess_some_inv {g : Graph} {dists : List Nat} {so : SortOrder}
    (h : postprocess g dists = some so) :
    ∃ last, (sortedDepths g dists).getLast? = some last ∧ last ≠ usizeMax ∧
      so = ⟨sortedIndices g dists, sortedDepths g dists,
        (levelWalk (sortedDepths g dists) 0 0 (List.replicate (last + 1) 0)).1,
        (levelWalk (sortedDepths g dists) 0 0 (List.replicate (last + 1) 0)).2⟩ := by
  rw [postprocess] at h
  rcases hl : (sortedDepths g dists).getLast? with _ | last
  · rw [hl] at h
    simp at h
  · rw [hl] at h
    simp only at h
    split_ifs at h with h2
    exact ⟨last, rfl, h2, (Option.some.inj h).symm⟩

/-! ### Concrete example graphs used as witnesses and counterexamples -/

/-- The graph of `sample_files/simple_add_with_const.json` used by the Rust
tests: Input 0 → Add, Bias → Add, Add → Output. -/
def exampleAdd : Graph :=
  { nodes := [⟨"input0", "Input 0", none⟩, ⟨"bias", "Bias", none⟩,
      ⟨"add", "Add", some "+"⟩, ⟨"output", "Output", none⟩]
  , from_connections := [[⟨0, 2⟩], [⟨1, 2⟩], [⟨2, 3⟩], []]
  , to_connections := [[], [], [⟨0, 2⟩, ⟨1, 2⟩], [⟨2, 3⟩]] }

theorem exampleAdd_wf : exampleAdd.WF :=
  ⟨rfl, rfl, by decide, by decide, by decide, by decide, by decide⟩

/-- Graph X → Z, X → Y, Y → Z (node 2 = Z is the only sink): node 0 = X has
shortest distance 1 to the sink but ends with recorded depth 2. -/
def cexShortest : Graph :=
  { nodes := [⟨"x", "X", none⟩, ⟨"y", "Y", none⟩, ⟨"z", "Z", none⟩]
  , from_connections := [[⟨0, 2⟩, ⟨0, 1⟩], [⟨1, 2⟩], []]
  , to_connections := [[], [⟨0, 1⟩], [⟨0, 2⟩, ⟨1, 2⟩]] }

theorem cexShortest_wf : cexShortest.WF :=
  ⟨rfl, rfl, by decide, by decide, by decide, by decide, by decide⟩

/-- Node 0 is an isolated sink; nodes 1 and 2 form a 2-cycle with no path to
any sink. -/
def unreachableExample : Graph :=
  { nodes := [⟨"s", "S", none⟩, ⟨"p", "P", none⟩, ⟨"q", "Q", none⟩]
  , from_connections := [[], [⟨1, 2⟩], [⟨2, 1⟩]]
  , to_connections := [[], [⟨2, 1⟩], [⟨1, 2⟩]] }

theorem unreachableExample_wf : unreachableExample.WF :=
  ⟨rfl, rfl, by decide, by decide, by decide, by decide, by decide⟩

/-- Node 0 is a sink; node 1 has a self-loop and an edge to the sink, so the
cycle is reachable (in reverse) from the sink. -/
def cycleExample : Graph :=
  { nodes := [⟨"s", "S", none⟩, ⟨"c", "C", none⟩]
  , from_connections := [[], [⟨1, 0⟩, ⟨1, 1⟩]]
  , to_connections := [[⟨1, 0⟩], [⟨1, 1⟩]] }

theorem cycleExample_wf : cycleExample.WF :=
  ⟨rfl, rfl, by decide, by decide, by decide, by decide, by decide⟩

/-- A pure 2-cycle: no node has zero outgoing connections. -/
def pureCycleExample : Graph :=
  { nodes := [⟨"p", "P", none⟩, ⟨"q", "Q", none⟩]
  , from_connections := [[⟨0, 1⟩], [⟨1, 0⟩]]
  , to_connections := [[⟨1, 0⟩], [⟨0, 1⟩]] }

/-- The empty graph: no nodes, no connections. -/
def emptyGraphExample : Graph := ⟨[], [], []⟩

theorem emptyGraphExample_wf : emptyGraphExample.WF :=
  ⟨rfl, rfl, by decide, by decide, by decide, by decide, by decide⟩

/-- A single node with no connections (used by the rendering witnesses). -/
def singleExample : Graph := ⟨[⟨"n", "N", none⟩], [[]], [[]]⟩


/-! ### Claim theorems -/

/-- C10: `reverse_topological_sort` terminates on every well-formed input
graph: with fuel `sortFuel g` the worklist loop never runs out — every popped
entry whose distance reaches the node count returns the cycle error, and
otherwise assignments to a node happen at strictly increasing distances
below the node count, so the queue drains or an error is returned. -/
theorem C10_termination (g : Graph) (hw : g.WF) :
    sortLoop g (sortFuel g) (initialQueue g) (List.replicate g.node_size usizeMax) ≠ none :=
  sortLoop_traverses hw

/-- Witness for C10 at a concrete graph. -/
theorem C10_termination_witness :
    exampleAdd.WF ∧
    sortLoop exampleAdd (sortFuel exampleAdd) (initialQueue exampleAdd)
      (List.replicate exampleAdd.node_size usizeMax) ≠ none :=
  ⟨exampleAdd_wf, C10_termination exampleAdd exampleAdd_wf⟩

/-- C4: for every graph in which no node has zero outgoing connections
(including the empty graph and pure cycles), `reverse_topological_sort`
fails immediately with the EmptyGraph error, producing no `SortOrder`. -/
theorem C4_empty_graph (g : Graph) (h : ∀ fc ∈ g.from_connections, fc ≠ []) :
    g.reverse_topological_sort = some (.error (.internalError "EmptyGraph")) := by
  have hq : initialQueue g = [] := by
    unfold initialQueue
    rw [List.map_eq_nil_iff, List.filter_eq_nil_iff]
    intro p hp
    have h2 := List.mem_enum_iff_getElem?.mp hp
    have hmem : p.2 ∈ g.from_connections := by
      rcases List.getElem?_eq_some_iff.mp h2 with ⟨hlt, hg⟩
      rw [← hg]
      exact List.getElem_mem hlt
    intro hemp
    exact h p.2 hmem (List.isEmpty_iff.mp hemp)
  rw [Graph.reverse_topological_sort, if_pos hq]

/-- Witness for C4 at a pure 2-cycle. -/
theorem C4_empty_graph_witness :
    (∀ fc ∈ pureCycleExample.from_connections, fc ≠ []) ∧
    pureCycleExample.reverse_topological_sort = some (.error (.internalError "EmptyGraph")) :=
  ⟨by decide, C4_empty_graph pureCycleExample (by decide)⟩

/-- C9: `to_svg` is a pure, deterministic function of its arguments: two
invocations on the same Graph, SortOrder and Style yield byte-identical
output.  In the embedding the renderer is a pure function; the Rust source
reads no state outside its arguments (no unordered containers, no
randomness, no mutable globals), which is what makes this model faithful. -/
theorem C9_deterministic (g : Graph) (so : SortOrder) (style : Style) (s₁ s₂ : String)
    (h₁ : to_svg g so style = some s₁) (h₂ : to_svg g so style = some s₂) : s₁ = s₂ := by
  rw [h₁] at h₂
  exact Option.some.inj h₂

/-- Witness for C9 at a concrete rendering. -/
theorem C9_deterministic_witness :
    ∃ s, to_svg singleExample ⟨[0], [0], [0], [1]⟩ DEFAULT_STYLE = some s ∧ s = s := by
  obtain ⟨s, hs⟩ : ∃ s, to_svg singleExample ⟨[0], [0], [0], [1]⟩ DEFAULT_STYLE = some s :=
    ⟨_, rfl⟩
  exact ⟨s, hs, C9_deterministic _ _ _ s s hs hs⟩

/-- C8: the canvas dimensions emitted by `to_svg` satisfy
width = (number of depth levels) × (box width + horizontal gap) + 2 × margin
width and height = (maximum level occupancy) × (box height + vertical gap) +
2 × margin height, and the emitted document opens with exactly these
dimensions; for a fixed style both are linear in their respective counts. -/
theorem C8_canvas_dimensions (g : Graph) (so : SortOrder) (style : Style) (s : String)
    (h : to_svg g so style = some s) :
    ∃ maxLevel, so.nodes_in_level.max? = some maxLevel ∧
      canvasWidth so style =
        (so.nodes_in_level.length : Int) * (style.box_width + style.width_between_boxes)
          + 2 * style.margin_width ∧
      canvasHeight (maxLevel : Int) style =
        (maxLevel : Int) * (style.box_height + style.height_between_boxes)
          + 2 * style.margin_height ∧
      ∃ rest, s = svgHeader (canvasHeight (maxLevel : Int) style) (canvasWidth so style) ++ rest := by
  rw [to_svg] at h
  rcases hm : so.nodes_in_level.max? with _ | maxLevel
  · rw [hm] at h
    simp at h
  · rw [hm] at h
    simp only at h
    rcases hr : renderNodes g so style (so.nodes_in_level.length : Int) (maxLevel : Int)
        so.order_indices.enum with _ | body
    · rw [hr] at h
      simp at h
    · rw [hr] at h
      refine ⟨maxLevel, rfl, ?_, ?_, ?_⟩
      · unfold canvasWidth Style.width_per_level
        ring
      · unfold canvasHeight Style.height_per_level
        ring
      · refine ⟨svgDefs ++ (svgFrame (canvasHeight (maxLevel : Int) style)
          (canvasWidth so style) style ++ (body ++ "</svg>\n")), ?_⟩
        have hs : s = svgHeader (canvasHeight (maxLevel : Int) style) (canvasWidth so style)
            ++ svgDefs ++ svgFrame (canvasHeight (maxLevel : Int) style) (canvasWidth so style) style
            ++ body ++ "</svg>\n" := (Option.some.inj h).symm
        rw [hs]
        simp only [String.append_assoc]

/-- Witness for C8 at a concrete rendering. -/
theorem C8_canvas_dimensions_witness :
    ∃ s, to_svg singleExample ⟨[0], [0], [0], [1]⟩ DEFAULT_STYLE = some s ∧
      ∃ maxLevel, (⟨[0], [0], [0], [1]⟩ : SortOrder).nodes_in_level.max? = some maxLevel ∧
        canvasWidth ⟨[0], [0], [0], [1]⟩ DEFAULT_STYLE =
          (((⟨[0], [0], [0], [1]⟩ : SortOrder).nodes_in_level.length : Int))
            * (DEFAULT_STYLE.box_width + DEFAULT_STYLE.width_between_boxes)
            + 2 * DEFAULT_STYLE.margin_width ∧
        canvasHeight (maxLevel : Int) DEFAULT_STYLE =
          (maxLevel : Int) * (DEFAULT_STYLE.box_height + DEFAULT_STYLE.height_between_boxes)
            + 2 * DEFAULT_STYLE.margin_height ∧
        ∃ rest, s = svgHeader (canvasHeight (maxLevel : Int) DEFAULT_STYLE)
          (canvasWidth ⟨[0], [0], [0], [1]⟩ DEFAULT_STYLE) ++ rest := by
  obtain ⟨s, hs⟩ : ∃ s, to_svg singleExample ⟨[0], [0], [0], [1]⟩ DEFAULT_STYLE = some s :=
    ⟨_, rfl⟩
  exact ⟨s, hs, C8_canvas_dimensions singleExample ⟨[0], [0], [0], [1]⟩ DEFAULT_STYLE s hs⟩

theorem resolveConnections_first_error (lookup : String → Option Nat) :
    ∀ (pre : List ConnectionFormat) (c : ConnectionFormat) (post : List ConnectionFormat)
      (fromT toT : List (List Connection)),
      (∀ c' ∈ pre, (∃ i, lookup c'.from_key = some i) ∧ ∃ i, lookup c'.to_key = some i) →
      (lookup c.from_key = none ∨
        ((∃ i, lookup c.from_key = some i) ∧ lookup c.to_key = none)) →
      resolveConnections lookup (pre ++ c :: post) fromT toT =
        .error (.internalError
          (if lookup c.from_key = none then "Invalid from reference " ++ c.from_key
           else "Invalid to reference " ++ c.to_key)) := by
  intro pre
  induction pre with
  | nil =>
    intro c post fromT toT _ hbad
    rcases hbad with h | ⟨⟨fi, hfi⟩, h2⟩
    · simp only [List.nil_append, resolveConnections, h, if_pos h]
      simp
    · have hne : ¬ lookup c.from_key = none := by rw [hfi]; simp
      simp only [List.nil_append, resolveConnections, hfi, h2, if_neg hne]
      simp
  | cons c' pre ih =>
    intro c post fromT toT hpre hbad
    obtain ⟨⟨fi, hfi⟩, ⟨ti, hti⟩⟩ := hpre c' (List.mem_cons_self _ _)
    simp only [List.cons_append, resolveConnections, hfi, hti]
    exact ih c post _ _ (fun x hx => hpre x (List.mem_cons_of_mem _ hx)) hbad

/-- C7: a connection whose `from` or `to` key is not a key of the node
mapping makes graph construction fail with the reference error naming the
offending key; the first offending connection in input-list order wins (the
`from` key of a connection is checked before its `to` key), and no partially built
graph is produced — the whole construction aborts with the error. -/
theorem C7_reference_error (parsed : GraphFormat) (pre : List ConnectionFormat)
    (c : ConnectionFormat) (post : List ConnectionFormat)
    (hsplit : parsed.connections = pre ++ c :: post)
    (hpre : ∀ c' ∈ pre, (∃ i, indexLookup parsed.nodes c'.from_key = some i) ∧
      ∃ i, indexLookup parsed.nodes c'.to_key = some i)
    (hbad : indexLookup parsed.nodes c.from_key = none ∨
      ((∃ i, indexLookup parsed.nodes c.from_key = some i) ∧
        indexLookup parsed.nodes c.to_key = none)) :
    buildGraph parsed = .error (.internalError
      (if indexLookup parsed.nodes c.from_key = none
       then "Invalid from reference " ++ c.from_key
       else "Invalid to reference " ++ c.to_key)) := by
  have hres := resolveConnections_first_error (indexLookup parsed.nodes) pre c post
    (List.replicate parsed.nodes.length []) (List.replicate parsed.nodes.length []) hpre hbad
  rw [buildGraph, hsplit, hres]

/-- Witness for C7: one node `a`, one connection `a → b` with unknown key
`b`. -/
theorem C7_reference_error_witness :
    buildGraph ⟨"leftRight", [("a", ⟨"A", none⟩)], [⟨"a", "b"⟩]⟩ =
      .error (.internalError "Invalid to reference b") := by
  have h := C7_reference_error ⟨"leftRight", [("a", ⟨"A", none⟩)], [⟨"a", "b"⟩]⟩ [] ⟨"a", "b"⟩ []
    rfl (fun c' hc' => absurd hc' (List.not_mem_nil c'))
    (Or.inr ⟨⟨0, by rfl⟩, by rfl⟩)
  exact h.trans (by rfl)

/-- C1 counterexample: the graph X→Z, X→Y, Y→Z (`cexShortest`, single sink
Z = node 2) is accepted; node 0 = X has a path of length 1 to the sink, yet
its recorded depth is 2 — the first-popped distance 1 was overwritten by a
later requeue at distance 2, so the recorded depth is not the shortest
distance from a sink, and for the direct connection (0, 2),
depth(from) ≠ depth(to) + (shortest reverse-distance 1). -/
theorem C1_counterexample :
    sortLoop cexShortest (sortFuel cexShortest) (initialQueue cexShortest)
        (List.replicate cexShortest.node_size usizeMax) = some (.ok [2, 1, 0]) ∧
    ReachSinkLen cexShortest 0 1 ∧
    cexShortest.Edge 0 2 ∧
    distOf [2, 1, 0] 0 = 2 ∧ distOf [2, 1, 0] 2 = 0 ∧ (2 : Nat) ≠ 0 + 1 ∧
    cexShortest.reverse_topological_sort =
      some (.ok ⟨[2, 1, 0], [0, 1, 2], [0, 0, 0], [1, 1, 1]⟩) := by
  refine ⟨by rfl, ⟨[2], List.Chain.cons (by decide) List.Chain.nil, rfl, by decide⟩,
    by decide, by rfl, by rfl, by decide, by rfl⟩

/-- C1 amended: the first-popped distance is not final — later requeues at
strictly larger distances overwrite it, and the recorded depth need not be
the shortest distance from a sink.  What every accepted run does guarantee
is the edge inequality: for every connection (from, to) whose target has a
recorded depth, depth(from) ≥ depth(to) + 1; in particular
depth(from) > depth(to) when from feeds to directly. -/
theorem C1_amended (g : Graph) (hw : g.WF) (dists : List Nat)
    (hok : sortLoop g (sortFuel g) (initialQueue g) (List.replicate g.node_size usizeMax)
      = some (.ok dists))
    (u v : Nat) (he : g.Edge u v) (hv : distOf dists v ≠ usizeMax) :
    distOf dists u ≠ usizeMax ∧ distOf dists v + 1 ≤ distOf dists u :=
  final_edge (sortLoop_ok_inv hw _ _ _ _ (loopInv_init hw) hok) he hv

/-- Witness for C1 (amended) at `cexShortest`, connection (0, 2). -/
theorem C1_amended_witness :
    cexShortest.WF ∧ cexShortest.Edge 0 2 ∧
    (distOf [2, 1, 0] 0 ≠ usizeMax ∧ distOf [2, 1, 0] 2 + 1 ≤ distOf [2, 1, 0] 0) :=
  ⟨cexShortest_wf, by decide,
    C1_amended cexShortest cexShortest_wf [2, 1, 0] (by rfl) 0 2 (by decide) (by decide)⟩

/-- A rank function decreasing along every edge witnesses acyclicity. -/
theorem acyclic_of_rank (g : Graph) (f : Nat → Nat)
    (h : ∀ v < g.to_connections.length, ∀ c ∈ g.to_connections.getD v [],
      f v < f c.from_index) : Acyclic g := by
  have hedge : ∀ u v, g.Edge u v → f v < f u := by
    rintro u v ⟨c, hc, rfl⟩
    have hvlt : v < g.to_connections.length := by
      by_contra hge
      push_neg at hge
      rw [List.getD_eq_default _ _ hge] at hc
      exact absurd hc (List.not_mem_nil c)
    exact h v hvlt c hc
  intro u htg
  have hmono : ∀ a b, Relation.TransGen g.Edge a b → f b < f a := by
    intro a b h2
    induction h2 with
    | single h3 => exact hedge _ _ h3
    | tail h3 h4 ih => exact Nat.lt_trans (hedge _ _ h4) ih
  exact absurd (hmono u u htg) (by omega)

/-- C2 counterexample: the empty graph is a well-formed DAG in which every
node (vacuously) has a path to a sink, yet `reverse_topological_sort`
returns the EmptyGraph error rather than `Ok`. -/
theorem C2_counterexample :
    emptyGraphExample.WF ∧ Acyclic emptyGraphExample ∧
    (∀ u < emptyGraphExample.node_size, ∃ d, ReachSinkLen emptyGraphExample u d) ∧
    emptyGraphExample.reverse_topological_sort =
      some (.error (.internalError "EmptyGraph")) := by
  refine ⟨emptyGraphExample_wf, ?_, ?_, by rfl⟩
  · have hnoedge : ∀ a b, ¬ emptyGraphExample.Edge a b := by
      rintro a b ⟨c, hc, -⟩
      rw [show emptyGraphExample.to_connections = [] from rfl, List.getD_nil] at hc
      exact absurd hc (List.not_mem_nil c)
    intro u htg
    cases htg with
    | single h => exact hnoedge _ _ h
    | tail h1 h2 => exact hnoedge _ _ h2
  · intro u hu
    exact absurd (hu : u < 0) (Nat.not_lt_zero u)

/-- C2 amended: for every well-formed *nonempty* DAG in which every node has
a directed path to some sink, `reverse_topological_sort` returns `Ok`, the
loop records exactly one finalized depth (a value below the node count) for
every node, and the recorded depth is 0 exactly for the sinks. -/
theorem C2_amended (g : Graph) (hw : g.WF) (hn : 0 < g.node_size) (hacyc : Acyclic g)
    (hreach : ∀ u < g.node_size, ∃ d, ReachSinkLen g u d) :
    ∃ dists,
      sortLoop g (sortFuel g) (initialQueue g) (List.replicate g.node_size usizeMax)
        = some (.ok dists) ∧
      (∀ u < g.node_size, distOf dists u < g.node_size) ∧
      (∀ u < g.node_size, (distOf dists u = 0 ↔ g.IsSink u)) ∧
      ∃ so, g.reverse_topological_sort = some (.ok so) := by
  obtain ⟨dists, hds⟩ : ∃ dists, sortLoop g (sortFuel g) (initialQueue g)
      (List.replicate g.node_size usizeMax) = some (.ok dists) := by
    rcases hrun : sortLoop g (sortFuel g) (initialQueue g)
        (List.replicate g.node_size usizeMax) with _ | r
    · exact absurd hrun (sortLoop_traverses hw)
    · rcases r with e | dists
      · exact absurd hrun (sortLoop_no_error_of_acyclic hw hacyc _ _ _ e (loopInv_init hw))
      · exact ⟨dists, rfl⟩
  have hfin : LoopInv g [] dists := sortLoop_ok_inv hw _ _ _ _ (loopInv_init hw) hds
  have hall : ∀ u < g.node_size, distOf dists u ≠ usizeMax := by
    intro u hu
    obtain ⟨d, hr⟩ := hreach u hu
    exact final_covered hw hfin d u hu hr
  refine ⟨dists, hds, ?_, ?_, ?_⟩
  · intro u hu
    exact (hfin.dset u hu (hall u hu)).1
  · intro u hu
    constructor
    · exact hfin.dzero u hu
    · intro hs
      rcases hfin.dsink u hu hs with h | h
      · exact absurd h (hall u hu)
      · exact h
  · obtain ⟨d0, hr0⟩ := hreach 0 hn
    obtain ⟨s, hslt, hsink⟩ := reach_sink_exists hw hn hr0
    have hqne : initialQueue g ≠ [] :=
      List.ne_nil_of_mem (sink_mem_initialQueue hw hslt hsink)
    obtain ⟨so, hso⟩ := postprocess_ok hw hfin hn hall
    refine ⟨so, ?_⟩
    rw [Graph.reverse_topological_sort, if_neg hqne, hds]
    simp [hso]

/-- Every node of `exampleAdd` has a path to the sink (node 3). -/
theorem exampleAdd_reach : ∀ u < exampleAdd.node_size, ∃ d, ReachSinkLen exampleAdd u d := by
  intro u hu
  have h4 : u < 4 := hu
  interval_cases u
  · exact ⟨2, [2, 3], List.Chain.cons (by decide) (List.Chain.cons (by decide) List.Chain.nil),
      rfl, by decide⟩
  · exact ⟨2, [2, 3], List.Chain.cons (by decide) (List.Chain.cons (by decide) List.Chain.nil),
      rfl, by decide⟩
  · exact ⟨1, [3], List.Chain.cons (by decide) List.Chain.nil, rfl, by decide⟩
  · exact ⟨0, [], List.Chain.nil, rfl, by decide⟩

/-- Witness for C2 (amended) at `exampleAdd`. -/
theorem C2_amended_witness :
    exampleAdd.WF ∧ 0 < exampleAdd.node_size ∧ Acyclic exampleAdd ∧
    (∀ u < exampleAdd.node_size, ∃ d, ReachSinkLen exampleAdd u d) ∧
    ∃ dists,
      sortLoop exampleAdd (sortFuel exampleAdd) (initialQueue exampleAdd)
        (List.replicate exampleAdd.node_size usizeMax) = some (.ok dists) ∧
      (∀ u < exampleAdd.node_size, distOf dists u < exampleAdd.node_size) ∧
      (∀ u < exampleAdd.node_size, (distOf dists u = 0 ↔ exampleAdd.IsSink u)) ∧
      ∃ so, exampleAdd.reverse_topological_sort = some (.ok so) :=
  ⟨exampleAdd_wf, by decide,
    acyclic_of_rank exampleAdd (fun v => [2, 2, 1, 0].getD v 0) (by decide),
    exampleAdd_reach,
    C2_amended exampleAdd exampleAdd_wf (by decide)
      (acyclic_of_rank exampleAdd (fun v => [2, 2, 1, 0].getD v 0) (by decide))
      exampleAdd_reach⟩

theorem cycle_msg_ne (s : String) : "EmptyGraph" ≠ "Cycle detected at node " ++ s := by
  intro h
  have h2 := congrArg String.length h
  rw [String.length_append] at h2
  have h3 : ("EmptyGraph" : String).length = 10 := rfl
  have h4 : ("Cycle detected at node " : String).length = 23 := rfl
  omega

/-- C3 counterexample: a pure 2-cycle contains a cycle but fails with the
EmptyGraph error (there is no sink to seed the queue), not with a
Cycle-Detected error naming any node. -/
theorem C3_counterexample :
    Relation.TransGen pureCycleExample.Edge 0 0 ∧
    pureCycleExample.reverse_topological_sort = some (.error (.internalError "EmptyGraph")) ∧
    ∀ u : Nat, pureCycleExample.reverse_topological_sort ≠
      some (.error (.internalError
        ("Cycle detected at node " ++ (pureCycleExample.node u).name))) := by
  refine ⟨Relation.TransGen.head (show pureCycleExample.Edge 0 1 by decide)
    (Relation.TransGen.single (show pureCycleExample.Edge 1 0 by decide)), by rfl, ?_⟩
  intro u h
  rw [show pureCycleExample.reverse_topological_sort
      = some (.error (.internalError "EmptyGraph")) from rfl] at h
  have h2 := Option.some.inj h
  injection h2 with h3
  injection h3 with h4
  exact cycle_msg_ne _ h4

/-- C3 amended: for every well-formed graph containing a cycle at least one
of whose nodes has a directed path to a sink, `reverse_topological_sort`
fails with the Cycle-Detected error naming a node (the detection fires when
a popped distance reaches the node count); cycles with no connection to any
sink instead fail as EmptyGraph (no sink at all) or are silently skipped. -/
theorem C3_amended (g : Graph) (hw : g.WF) (w d : Nat)
    (hcyc : Relation.TransGen g.Edge w w) (hreach : ReachSinkLen g w d) :
    ∃ u, u < g.node_size ∧ g.reverse_topological_sort =
      some (.error (.internalError ("Cycle detected at node " ++ (g.node u).name))) := by
  have hwlt : w < g.node_size := by
    cases hcyc with
    | single h => exact edge_to_lt hw h
    | tail h1 h2 => exact edge_to_lt hw h2
  obtain ⟨s, hslt, hsink⟩ := reach_sink_exists hw hwlt hreach
  have hqne : initialQueue g ≠ [] :=
    List.ne_nil_of_mem (sink_mem_initialQueue hw hslt hsink)
  rcases hrun : sortLoop g (sortFuel g) (initialQueue g)
      (List.replicate g.node_size usizeMax) with _ | r
  · exact absurd hrun (sortLoop_traverses hw)
  · rcases r with e | dists
    · obtain ⟨u, hu, rfl⟩ := sortLoop_error_shape hw _ _ _ e (loopInv_init hw) hrun
      refine ⟨u, hu, ?_⟩
      rw [Graph.reverse_topological_sort, if_neg hqne, hrun]
    · exfalso
      have hfin := sortLoop_ok_inv hw _ _ _ _ (loopInv_init hw) hrun
      have hset := final_covered hw hfin d w hwlt hreach
      obtain ⟨-, hlt⟩ := final_transGen hfin hcyc hset
      omega

/-- Witness for C3 (amended): node 0 is a sink, node 1 has a self-loop and
an edge into the sink. -/
theorem C3_amended_witness :
    cycleExample.WF ∧ Relation.TransGen cycleExample.Edge 1 1 ∧
    ReachSinkLen cycleExample 1 1 ∧
    ∃ u, u < cycleExample.node_size ∧ cycleExample.reverse_topological_sort =
      some (.error (.internalError ("Cycle detected at node " ++ (cycleExample.node u).name))) :=
  ⟨cycleExample_wf, Relation.TransGen.single (by decide),
    ⟨[0], List.Chain.cons (by decide) List.Chain.nil, rfl, by decide⟩,
    C3_amended cycleExample cycleExample_wf 1 1 (Relation.TransGen.single (by decide))
      ⟨[0], List.Chain.cons (by decide) List.Chain.nil, rfl, by decide⟩⟩

/-- C6: in a graph with a sink but also a node with no directed path to any
sink, the loop never visits that node — if the queue drains, the node's
recorded distance is still the unset sentinel `usize::MAX`, no descriptive
error is produced, and the subsequent depth handling panics (the model
returns `none`: `usize::MAX + 1` overflows and the level vector is
mis-sized), so no `SortOrder` is returned. -/
theorem C6_unreachable_node (g : Graph) (hw : g.WF) (w : Nat) (hwlt : w < g.node_size)
    (hnreach : ∀ d, ¬ ReachSinkLen g w d)
    (hsink : ∃ s, s < g.node_size ∧ g.IsSink s) (dists : List Nat)
    (hok : sortLoop g (sortFuel g) (initialQueue g) (List.replicate g.node_size usizeMax)
      = some (.ok dists)) :
    distOf dists w = usizeMax ∧ g.reverse_topological_sort = none := by
  have hfin := sortLoop_ok_inv hw _ _ _ _ (loopInv_init hw) hok
  have hunset : distOf dists w = usizeMax := by
    by_contra h
    exact hnreach _ (hfin.dreach w hwlt h)
  obtain ⟨s, hslt, hsk⟩ := hsink
  have hqne : initialQueue g ≠ [] := List.ne_nil_of_mem (sink_mem_initialQueue hw hslt hsk)
  refine ⟨hunset, ?_⟩
  rw [Graph.reverse_topological_sort, if_neg hqne, hok]
  simp [postprocess_none hw hfin hwlt hunset]

/-- Nodes 1 and 2 of `unreachableExample` form a cycle disconnected from the
only sink, so node 1 has no path to any sink. -/
theorem unreachableExample_no_reach : ∀ d, ¬ ReachSinkLen unreachableExample 1 d := by
  have hstep : ∀ u v : Nat, unreachableExample.Edge u v → (v = 1 ∨ v = 2) := by
    rintro u v ⟨c, hc, -⟩
    have hvlt : v < 3 := by
      by_contra hge
      push_neg at hge
      rw [List.getD_eq_default _ _ (by simpa [unreachableExample] using hge)] at hc
      exact absurd hc (List.not_mem_nil c)
    interval_cases v
    · simp [unreachableExample] at hc
    · exact Or.inl rfl
    · exact Or.inr rfl
  have hstay : ∀ (l : List Nat) (u : Nat), (u = 1 ∨ u = 2) →
      List.Chain unreachableExample.Edge u l → (l.getLastD u = 1 ∨ l.getLastD u = 2) := by
    intro l
    induction l with
    | nil => intro u hu _; simpa using hu
    | cons v l' ih =>
      intro u hu hchain
      rw [List.chain_cons] at hchain
      rw [List.getLastD_cons]
      exact ih v (hstep u v hchain.1) hchain.2
  rintro d ⟨l, hchain, -, hsinkk⟩
  rcases hstay l 1 (Or.inl rfl) hchain with h | h <;> rw [h] at hsinkk <;>
    exact absurd hsinkk (by decide)

/-- Witness for C6 at `unreachableExample` (node 1 never visited; the whole
run panics instead of producing a result). -/
theorem C6_unreachable_node_witness :
    unreachableExample.WF ∧ 1 < unreachableExample.node_size ∧
    (∀ d, ¬ ReachSinkLen unreachableExample 1 d) ∧
    (∃ s, s < unreachableExample.node_size ∧ unreachableExample.IsSink s) ∧
    sortLoop unreachableExample (sortFuel unreachableExample) (initialQueue unreachableExample)
      (List.replicate unreachableExample.node_size usizeMax)
      = some (.ok [0, usizeMax, usizeMax]) ∧
    (distOf [0, usizeMax, usizeMax] 1 = usizeMax ∧
      unreachableExample.reverse_topological_sort = none) :=
  ⟨unreachableExample_wf, by decide, unreachableExample_no_reach, ⟨0, by decide, by decide⟩,
    by rfl,
    C6_unreachable_node unreachableExample unreachableExample_wf 1 (by decide)
      unreachableExample_no_reach ⟨0, by decide, by decide⟩ [0, usizeMax, usizeMax] (by rfl)⟩

/-- C5: in every SortOrder returned by `reverse_topological_sort`:
`order_indices` sorts the nodes by depth ascending (`depths`, the recorded
distances read off along the order, is non-decreasing); within equal depth
nodes appear in original node-index order (stable-sort tie-break);
`index_at_depth` starts at 0, resets to 0 whenever the depth changes while
walking the order left to right and increments by 1 within a level; and
`nodes_in_level[d]` is the number of order positions whose depth is `d`. -/
theorem C5_sort_order (g : Graph) (hw : g.WF) (so : SortOrder)
    (hok : g.reverse_topological_sort = some (.ok so)) :
    ∃ dists,
      sortLoop g (sortFuel g) (initialQueue g) (List.replicate g.node_size usizeMax)
        = some (.ok dists) ∧
      so.order_indices = sortedIndices g dists ∧
      so.depths = so.order_indices.map (fun i => dists.getD i 0) ∧
      so.depths.Pairwise (· ≤ ·) ∧
      (∀ i j, ∀ (hi : i < so.order_indices.length) (hj : j < so.order_indices.length),
        i < j → so.depths.getD i 0 = so.depths.getD j 0 →
        so.order_indices[i] < so.order_indices[j]) ∧
      so.index_at_depth.getD 0 0 = 0 ∧
      (∀ i, i + 1 < so.depths.length →
        (so.depths.getD (i + 1) 0 = so.depths.getD i 0 →
          so.index_at_depth.getD (i + 1) 0 = so.index_at_depth.getD i 0 + 1) ∧
        (so.depths.getD (i + 1) 0 ≠ so.depths.getD i 0 →
          so.index_at_depth.getD (i + 1) 0 = 0)) ∧
      (∀ d, so.nodes_in_level.getD d 0 = so.depths.count d) := by
  obtain ⟨dists, hrun, hpp⟩ := rts_ok_inv hok
  obtain ⟨last, hlast, hlmax, rfl⟩ := postprocess_some_inv hpp
  have hdg : ∀ k (hk : k < (sortedIndices g dists).length),
      (sortedDepths g dists).getD k 0 = dists.getD ((sortedIndices g dists)[k]) 0 := by
    intro k hk
    unfold sortedDepths
    rw [List.getD_eq_getElem _ _ (by simpa using hk), List.getElem_map]
  refine ⟨dists, hrun, rfl, rfl, sortedDepths_sorted g dists, ?_, ?_, ?_, ?_⟩
  · intro i j hi hj hij hkey
    refine sortedIndices_lex hi hj hij ?_
    rw [← hdg i hi, ← hdg j hj]
    exact hkey
  · exact levelWalk_head _ _ _
  · intro i hlen
    exact levelWalk_adjacent i (sortedDepths g dists) 0 0 _ hlen
  · intro d
    have hne : sortedDepths g dists ≠ [] := by
      intro h0
      rw [h0] at hlast
      simp at hlast
    have hgl : (sortedDepths g dists).getLast hne = last := by
      have h1 := List.getLast?_eq_getLast _ hne
      rw [hlast] at h1
      exact (Option.some.inj h1).symm
    have hbound : ∀ x ∈ sortedDepths g dists, x < last + 1 := by
      intro x hx
      have h2 := sorted_le_getLast (sortedDepths_sorted g dists) hne hx
      rw [hgl] at h2
      omega
    have hcnt := levelWalk_count (sortedDepths g dists) [] (List.replicate (last + 1) 0)
      (by simpa using sortedDepths_sorted g dists)
      (by
        intro x hx
        rw [List.length_replicate]
        exact hbound x (by simpa using hx))
      (fun y => by rw [getD_replicate_zero]; rfl)
      d
    simpa using hcnt

/-- Witness for C5 at `exampleAdd` (the order expected by the Rust test:
[Output, Add, Input 0, Bias] with depths [0, 1, 2, 2]). -/
theorem C5_sort_order_witness :
    exampleAdd.WF ∧
    exampleAdd.reverse_topological_sort =
      some (.ok ⟨[3, 2, 0, 1], [0, 1, 2, 2], [0, 0, 0, 1], [1, 1, 2]⟩) ∧
    (SortOrder.depths ⟨[3, 2, 0, 1], [0, 1, 2, 2], [0, 0, 0, 1], [1, 1, 2]⟩).Pairwise (· ≤ ·) ∧
    (∀ d, (SortOrder.nodes_in_level ⟨[3, 2, 0, 1], [0, 1, 2, 2], [0, 0, 0, 1], [1, 1, 2]⟩).getD d 0
      = (SortOrder.depths ⟨[3, 2, 0, 1], [0, 1, 2, 2], [0, 0, 0, 1], [1, 1, 2]⟩).count d) := by
  obtain ⟨dists, -, -, -, hpw, -, -, -, hcount⟩ :=
    C5_sort_order exampleAdd exampleAdd_wf
      ⟨[3, 2, 0, 1], [0, 1, 2, 2], [0, 0, 0, 1], [1, 1, 2]⟩ (by rfl)
  exact ⟨exampleAdd_wf, by rfl, hpw, hcount⟩
